import Mathlib

/-!
Verification development for the change-capture and bundling pipeline of
`Baseline/run_pipeline.py`.

Modelling conventions (shallow embedding):
* Python strings are modelled as `Chars := List Char`; all string operations
  used by the pipeline (strip, splitlines, startswith, `split(sep, 1)`, ...)
  are defined here over character lists, faithful to the Python semantics
  for the inputs the pipeline handles (newline `\n` line separation, ASCII
  whitespace).
* Filesystem paths are `FPath := List Chars` (the component list of a
  `pathlib` relative path).  A filesystem is an association list from paths
  to file data; a write prepends the new entry and removes any previous
  entry with the same key, which models "overwrite" (`shutil.copy2`,
  `Path.write_text`) exactly.  Directories are implicit (``mkdir`` has no
  observable effect on file contents and is not modelled).
* Fallible code is modelled with `Except`.
-/

/-- Python string, modelled as a list of characters. -/
abbrev Chars := List Char

/-- Conversion from a Lean string literal to the character-list model. -/
def cs (s : String) : Chars := s.toList

/-- Whitespace test matching Python `str.strip` / `shlex` whitespace for the
ASCII characters that occur in the pipeline's inputs. -/
def isWs (c : Char) : Bool := c = ' ' || c = '\t' || c = '\n' || c = '\r'

/-- Drop leading whitespace (Python `lstrip`). -/
def lstrip : Chars → Chars
  | [] => []
  | c :: cssss => if isWs c then lstrip cssss else c :: cssss

/-- Drop trailing whitespace (Python `rstrip`). -/
def rstrip (s : Chars) : Chars := (lstrip s.reverse).reverse

/-- Python `str.strip`. -/
def strip (s : Chars) : Chars := lstrip (rstrip s)

/-- Prefix test (Python `str.startswith`). -/
def isPre : Chars → Chars → Bool
  | [], _ => true
  | _ :: _, [] => false
  | p :: ps, c :: cssss => p = c && isPre ps cssss

/-- Suffix test (Python `str.endswith`). -/
def isSuf (p s : Chars) : Bool := isPre p.reverse s.reverse

/-- Strip all leading and trailing copies of a character
(Python `str.strip('"')`). -/
def stripChar (q : Char) (s : Chars) : Chars :=
  let dropQ : Chars → Chars := fun t => t.dropWhile (fun c => c = q)
  (dropQ ((dropQ s.reverse).reverse))

/-- Split at the first occurrence of `sep`, returning the parts before and
after it; `none` when `sep` does not occur (Python `s.split(sep, 1)` with the
occurrence test `sep in s`). -/
def splitFirst (sep : Chars) : Chars → Option (Chars × Chars)
  | [] => none
  | c :: cssss =>
    if isPre sep (c :: cssss) then some ([], (c :: cssss).drop sep.length)
    else
      match splitFirst sep cssss with
      | some pr => some (c :: pr.1, pr.2)
      | none => none

/-- Split on every occurrence of a single character (helper for
`splitLines` and path parsing). -/
def splitOnChar (sep : Char) : Chars → List Chars
  | [] => [[]]
  | c :: cssss =>
    match splitOnChar sep cssss with
    | [] => if c = sep then [[], []] else [[c]]
    | r :: rs => if c = sep then [] :: r :: rs else (c :: r) :: rs

/-- Python `str.splitlines` for newline-separated text: no trailing empty
line when the text ends with a newline, and `[]` for empty text. -/
def splitLines (t : Chars) : List Chars :=
  if t = [] then []
  else
    let r := splitOnChar '\n' t
    if t.getLast? = some '\n' then r.dropLast else r

/-- Python `str.lower`, ASCII. -/
def lowerChars (s : Chars) : Chars := s.map Char.toLower

/-- Join a list of strings with single spaces (Python `" ".join`). -/
def joinSpace (l : List Chars) : Chars := (l.intersperse (cs " ")).flatten

/-- A relative filesystem path: the `pathlib` component list. -/
abbrev FPath := List Chars

/-- Python `pathlib.Path(s)` on a relative path string: split on `/`,
dropping empty components and single-dot components. -/
def toRelPath (s : Chars) : FPath :=
  (splitOnChar '/' s).filter (fun comp => decide (comp ≠ [] ∧ comp ≠ ['.']))

/-- Final path component (`Path.name`); `[]` for the empty path. -/
def nameOf (p : FPath) : Chars := p.getLastD []

/-- The `pathlib` `Path.suffix` of a file name: the part from the last dot,
provided the dot is neither the first nor the last character. -/
def suffixOf (n : Chars) : Chars :=
  match splitFirst ['.'] n.reverse with
  | some pr => if pr.2 ≠ [] && pr.1 ≠ [] then '.' :: pr.1.reverse else []
  | none => []

/-! ### A three-way lexicographic comparison on characters, strings, paths -/

/-- Three-way comparison of characters by code point. -/
def chCmp (a b : Char) : Ordering := compare a.toNat b.toNat

/-- Lexicographic extension of a three-way comparison to lists. -/
def lexCmp (cmp : α → α → Ordering) : List α → List α → Ordering
  | [], [] => .eq
  | [], _ :: _ => .lt
  | _ :: _, [] => .gt
  | a :: as, b :: bs =>
    match cmp a b with
    | .lt => .lt
    | .eq => lexCmp cmp as bs
    | .gt => .gt

/-- String comparison (Python `str` comparison, code-point order). -/
def chsCmp : Chars → Chars → Ordering := lexCmp chCmp

/-- Path comparison: `pathlib` paths compare by their component lists. -/
def pathCmp : FPath → FPath → Ordering := lexCmp chsCmp

/-- Non-strict path order used for `sorted(...)`. -/
def pathLe (a b : FPath) : Prop := pathCmp a b ≠ Ordering.gt

instance : DecidablePred fun pr : FPath × FPath => pathLe pr.1 pr.2 := by
  intro pr; unfold pathLe; infer_instance

instance (a b : FPath) : Decidable (pathLe a b) := by
  unfold pathLe; infer_instance

theorem chCmp_eq_iff (a b : Char) : chCmp a b = .eq ↔ a = b := by
  unfold chCmp
  rw [Nat.compare_eq_eq]
  constructor
  · intro h; exact Char.ext (UInt32.ext h)
  · intro h; rw [h]

theorem chCmp_lt_iff_gt (a b : Char) : chCmp a b = .lt ↔ chCmp b a = .gt := by
  unfold chCmp
  rw [Nat.compare_eq_lt, Nat.compare_eq_gt]

theorem chCmp_lt_trans {a b c : Char} (h₁ : chCmp a b = .lt) (h₂ : chCmp b c = .lt) :
    chCmp a c = .lt := by
  unfold chCmp at *
  rw [Nat.compare_eq_lt] at *
  omega

theorem lexCmp_eq_iff (cmp : α → α → Ordering)
    (hEq : ∀ a b, cmp a b = .eq ↔ a = b) :
    ∀ l₁ l₂ : List α, lexCmp cmp l₁ l₂ = .eq ↔ l₁ = l₂ := by
  intro l₁
  induction l₁ with
  | nil => intro l₂; cases l₂ <;> simp [lexCmp]
  | cons a as ih =>
    intro l₂
    cases l₂ with
    | nil => simp [lexCmp]
    | cons b bs =>
      simp only [lexCmp]
      rcases ho : cmp a b with _ | _ | _
      · simp only [List.cons.injEq]
        constructor
        · intro h; exact absurd h (by simp)
        · rintro ⟨h1, _⟩
          rw [h1, (hEq b b).mpr rfl] at ho
          exact absurd ho (by simp)
      · rw [ih bs]
        have hab : a = b := (hEq a b).mp ho
        simp [hab]
      · simp only [List.cons.injEq]
        constructor
        · intro h; exact absurd h (by simp)
        · rintro ⟨h1, _⟩
          rw [h1, (hEq b b).mpr rfl] at ho
          exact absurd ho (by simp)

theorem lexCmp_lt_iff_gt (cmp : α → α → Ordering)
    (hEq : ∀ a b, cmp a b = .eq ↔ a = b)
    (hSw : ∀ a b, cmp a b = .lt ↔ cmp b a = .gt) :
    ∀ l₁ l₂ : List α, lexCmp cmp l₁ l₂ = .lt ↔ lexCmp cmp l₂ l₁ = .gt := by
  intro l₁
  induction l₁ with
  | nil => intro l₂; cases l₂ <;> simp [lexCmp]
  | cons a as ih =>
    intro l₂
    cases l₂ with
    | nil => simp [lexCmp]
    | cons b bs =>
      simp only [lexCmp]
      rcases ho : cmp a b with _ | _ | _
      · have hgt : cmp b a = .gt := (hSw a b).mp ho
        simp [hgt]
      · have hab : a = b := (hEq a b).mp ho
        have hba : cmp b a = .eq := by rw [hab]; exact (hEq b b).mpr rfl
        simp [hba, ih bs]
      · have hba : cmp b a = .lt := by
          rw [hSw b a]; exact ho
        simp [hba]

theorem lexCmp_lt_trans (cmp : α → α → Ordering)
    (hEq : ∀ a b, cmp a b = .eq ↔ a = b)
    (hTr : ∀ {a b c}, cmp a b = .lt → cmp b c = .lt → cmp a c = .lt) :
    ∀ {l₁ l₂ l₃ : List α}, lexCmp cmp l₁ l₂ = .lt → lexCmp cmp l₂ l₃ = .lt →
      lexCmp cmp l₁ l₃ = .lt := by
  intro l₁
  induction l₁ with
  | nil =>
    intro l₂ l₃ h₁ h₂
    cases l₂ with
    | nil => exact h₂
    | cons b bs =>
      cases l₃ with
      | nil => simp [lexCmp] at h₂
      | cons c cssss => simp [lexCmp]
  | cons a as ih =>
    intro l₂ l₃ h₁ h₂
    cases l₂ with
    | nil => simp [lexCmp] at h₁
    | cons b bs =>
      cases l₃ with
      | nil => simp [lexCmp] at h₂
      | cons c cssss =>
        simp only [lexCmp] at h₁ h₂ ⊢
        rcases hab : cmp a b with _ | _ | _ <;> rw [hab] at h₁ <;> simp at h₁ <;>
          rcases hbc : cmp b c with _ | _ | _ <;> rw [hbc] at h₂ <;> simp at h₂
        · -- a < b, b < c
          rw [hTr hab hbc]
        · -- a < b, b = c
          rw [← (hEq b c).mp hbc, hab]
        · -- a = b, b < c
          rw [(hEq a b).mp hab, hbc]
        · -- a = b, b = c
          rw [(hEq a b).mp hab, hbc]
          exact ih h₁ h₂

theorem chsCmp_eq_iff (a b : Chars) : chsCmp a b = .eq ↔ a = b :=
  lexCmp_eq_iff chCmp chCmp_eq_iff a b

theorem chsCmp_lt_iff_gt (a b : Chars) : chsCmp a b = .lt ↔ chsCmp b a = .gt :=
  lexCmp_lt_iff_gt chCmp chCmp_eq_iff chCmp_lt_iff_gt a b

theorem chsCmp_lt_trans {a b c : Chars} (h₁ : chsCmp a b = .lt) (h₂ : chsCmp b c = .lt) :
    chsCmp a c = .lt :=
  lexCmp_lt_trans chCmp chCmp_eq_iff (fun h h' => chCmp_lt_trans h h') h₁ h₂

theorem pathCmp_eq_iff (a b : FPath) : pathCmp a b = .eq ↔ a = b :=
  lexCmp_eq_iff chsCmp chsCmp_eq_iff a b

theorem pathCmp_lt_iff_gt (a b : FPath) : pathCmp a b = .lt ↔ pathCmp b a = .gt :=
  lexCmp_lt_iff_gt chsCmp chsCmp_eq_iff chsCmp_lt_iff_gt a b

theorem pathCmp_lt_trans {a b c : FPath} (h₁ : pathCmp a b = .lt) (h₂ : pathCmp b c = .lt) :
    pathCmp a c = .lt :=
  lexCmp_lt_trans chsCmp chsCmp_eq_iff (fun h h' => chsCmp_lt_trans h h') h₁ h₂

theorem pathLe_refl (a : FPath) : pathLe a a := by
  unfold pathLe
  rw [pathCmp_eq_iff a a |>.mpr rfl]
  simp

theorem pathLe_total (a b : FPath) : pathLe a b ∨ pathLe b a := by
  unfold pathLe
  rcases h : pathCmp a b with _ | _ | _
  · left; simp
  · left; simp
  · right
    have : pathCmp b a = .lt := (pathCmp_lt_iff_gt b a).mpr h
    simp [this]

theorem pathLe_antisymm {a b : FPath} (h₁ : pathLe a b) (h₂ : pathLe b a) : a = b := by
  unfold pathLe at *
  rcases h : pathCmp a b with _ | _ | _
  · exact absurd ((pathCmp_lt_iff_gt a b).mp h) h₂
  · exact (pathCmp_eq_iff a b).mp h
  · exact absurd h h₁

theorem pathLe_trans {a b c : FPath} (h₁ : pathLe a b) (h₂ : pathLe b c) : pathLe a c := by
  unfold pathLe at *
  rcases hab : pathCmp a b with _ | _ | _
  · rcases hbc : pathCmp b c with _ | _ | _
    · simp [pathCmp_lt_trans hab hbc]
    · rw [← (pathCmp_eq_iff b c).mp hbc]; simp [hab]
    · exact absurd hbc h₂
  · rw [(pathCmp_eq_iff a b).mp hab]; exact h₂
  · exact absurd hab h₁

/-! ### Insertion sort on paths, modelling Python `sorted` -/

/-- Insert a path into a sorted list of paths. -/
def insortP (x : FPath) : List FPath → List FPath
  | [] => [x]
  | y :: ys => if pathLe x y then x :: y :: ys else y :: insortP x ys

/-- Sort a list of paths (Python `sorted(...)` on `pathlib` paths). -/
def isortP : List FPath → List FPath
  | [] => []
  | x :: xs => insortP x (isortP xs)

theorem insortP_perm (x : FPath) (l : List FPath) : List.Perm (insortP x l) (x :: l) := by
  induction l with
  | nil => simp [insortP]
  | cons y ys ih =>
    by_cases h : pathLe x y
    · simp [insortP, h]
    · simp only [insortP, if_neg h]
      exact (ih.cons y).trans (List.Perm.swap x y ys)

theorem isortP_perm (l : List FPath) : List.Perm (isortP l) l := by
  induction l with
  | nil => simp [isortP]
  | cons x xs ih =>
    exact (insortP_perm x (isortP xs)).trans (ih.cons x)

theorem mem_isortP {x : FPath} {l : List FPath} : x ∈ isortP l ↔ x ∈ l :=
  (isortP_perm l).mem_iff

theorem nodup_isortP {l : List FPath} (h : l.Nodup) : (isortP l).Nodup :=
  ((isortP_perm l).nodup_iff).mpr h

theorem insortP_sorted {x : FPath} {l : List FPath}
    (h : l.Pairwise pathLe) : (insortP x l).Pairwise pathLe := by
  induction l with
  | nil => simp [insortP]
  | cons y ys ih =>
    rcases List.pairwise_cons.mp h with ⟨hy, hys⟩
    by_cases hxy : pathLe x y
    · simp only [insortP, if_pos hxy]
      refine List.pairwise_cons.mpr ⟨?_, h⟩
      intro z hz
      rcases hz with _ | hz
      · exact hxy
      · exact pathLe_trans hxy (hy z (by assumption))
    · simp only [insortP, if_neg hxy]
      refine List.pairwise_cons.mpr ⟨?_, ih hys⟩
      intro z hz
      have : z = x ∨ z ∈ ys := by
        have := (insortP_perm x ys).mem_iff.mp hz
        simpa using this
      rcases this with rfl | hz'
      · rcases pathLe_total y z with h' | h'
        · exact h'
        · exact absurd h' hxy
      · exact hy z hz'

theorem isortP_sorted (l : List FPath) : (isortP l).Pairwise pathLe := by
  induction l with
  | nil => simp [isortP]
  | cons x xs ih => exact insortP_sorted ih

/-- Two sorted duplicate-free lists with the same members are equal. -/
theorem sorted_nodup_ext :
    ∀ {l₁ l₂ : List FPath}, l₁.Pairwise pathLe → l₂.Pairwise pathLe →
      l₁.Nodup → l₂.Nodup → (∀ x, x ∈ l₁ ↔ x ∈ l₂) → l₁ = l₂ := by
  intro l₁
  induction l₁ with
  | nil =>
    intro l₂ _ _ _ _ hmem
    cases l₂ with
    | nil => rfl
    | cons b bs => exact absurd ((hmem b).mpr (by simp)) (by simp)
  | cons a as ih =>
    intro l₂ hs₁ hs₂ hn₁ hn₂ hmem
    cases l₂ with
    | nil => exact absurd ((hmem a).mp (by simp)) (by simp)
    | cons b bs =>
      rcases List.pairwise_cons.mp hs₁ with ⟨ha, has⟩
      rcases List.pairwise_cons.mp hs₂ with ⟨hb, hbs⟩
      rcases List.nodup_cons.mp hn₁ with ⟨hna, hnas⟩
      rcases List.nodup_cons.mp hn₂ with ⟨hnb, hnbs⟩
      have hab : a = b := by
        have hmA : a ∈ b :: bs := (hmem a).mp (by simp)
        have hmB : b ∈ a :: as := (hmem b).mpr (by simp)
        rcases List.mem_cons.mp hmA with h | h
        · exact h
        · rcases List.mem_cons.mp hmB with h' | h'
          · exact h'.symm
          · exact pathLe_antisymm (ha b h') (hb a h)
      subst hab
      have htail : ∀ x, x ∈ as ↔ x ∈ bs := by
        intro x
        constructor
        · intro hx
          rcases List.mem_cons.mp ((hmem x).mp (List.mem_cons_of_mem a hx)) with h | h
          · exact absurd (h ▸ hx) hna
          · exact h
        · intro hx
          rcases List.mem_cons.mp ((hmem x).mpr (List.mem_cons_of_mem a hx)) with h | h
          · exact absurd (h ▸ hx) hnb
          · exact h
      rw [ih has hbs hnas hnbs htail]

/-! ### Filesystem model

A filesystem is an association list from paths to file data.  `lkp` reads a
file; `fwrite` overwrites (models `Path.write_text` and `shutil.copy2`,
which replace the destination file's bytes).  `FData` distinguishes raw
file bytes from the structured issue-record JSON the pipeline serialises;
`json.dumps` of the issue record is deterministic and injective on the
record's fields, so `FData` equality models byte equality of files. -/

/-- File contents. -/
inductive FData where
  | str (s : Chars)
  | issueJson (number : Nat) (url baseSha headSha patch : Chars)
  deriving DecidableEq

/-- A filesystem: an association list from paths to file contents. -/
abbrev FS := List (FPath × FData)

/-- Read a file (first matching entry). -/
def lkp : FS → FPath → Option FData
  | [], _ => none
  | e :: es, p => if e.1 = p then some e.2 else lkp es p

/-- Overwrite a file: the new entry replaces any entry at the same path. -/
def fwrite (fs : FS) (k : FPath) (v : FData) : FS :=
  (k, v) :: fs.filter (fun e => decide (e.1 ≠ k))

/-- Apply a list of writes in order. -/
def applyW (ws : List (FPath × FData)) (fs : FS) : FS :=
  ws.foldl (fun f w => fwrite f w.1 w.2) fs

/-- The last write to a given path in a write list, if any. -/
def lastW : List (FPath × FData) → FPath → Option FData
  | [], _ => none
  | w :: ws, p =>
    match lastW ws p with
    | some v => some v
    | none => if w.1 = p then some w.2 else none

theorem lkp_fwrite_self (fs : FS) (k : FPath) (v : FData) :
    lkp (fwrite fs k v) k = some v := by
  simp [fwrite, lkp]

theorem lkp_filter_ne (fs : FS) {p k : FPath} (h : p ≠ k) :
    lkp (fs.filter (fun e => decide (e.1 ≠ k))) p = lkp fs p := by
  induction fs with
  | nil => rfl
  | cons e es ih =>
    rw [List.filter_cons]
    by_cases he : e.1 = k
    · have hep : ¬ e.1 = p := fun hc => h (hc ▸ he ▸ rfl)
      have hd : (decide (e.1 ≠ k)) = false := by simp [he]
      rw [hd, if_neg Bool.false_ne_true]
      show _ = lkp (e :: es) p
      simp only [lkp]
      rw [if_neg hep]
      exact ih
    · have hd : (decide (e.1 ≠ k)) = true := by simp [he]
      rw [hd, if_pos rfl]
      by_cases hep : e.1 = p
      · simp [lkp, hep]
      · simp only [lkp]
        rw [if_neg hep, if_neg hep]
        exact ih

theorem lkp_fwrite_ne (fs : FS) {p k : FPath} (v : FData) (h : p ≠ k) :
    lkp (fwrite fs k v) p = lkp fs p := by
  simp only [fwrite, lkp]
  rw [if_neg (fun hc => h hc.symm)]
  exact lkp_filter_ne fs h

theorem lkp_applyW (ws : List (FPath × FData)) (fs : FS) (p : FPath) :
    lkp (applyW ws fs) p =
      match lastW ws p with
      | some v => some v
      | none => lkp fs p := by
  induction ws generalizing fs with
  | nil => simp [applyW, lastW]
  | cons w ws ih =>
    have h1 : applyW (w :: ws) fs = applyW ws (fwrite fs w.1 w.2) := rfl
    rw [h1, ih (fwrite fs w.1 w.2)]
    rcases hl : lastW ws p with _ | v
    · simp only [lastW, hl]
      by_cases hw : w.1 = p
      · subst hw
        simp [lkp_fwrite_self]
      · rw [lkp_fwrite_ne fs w.2 (fun hc => hw hc.symm), if_neg hw]
    · simp [lastW, hl]

theorem applyW_append (a b : List (FPath × FData)) (fs : FS) :
    applyW (a ++ b) fs = applyW b (applyW a fs) := by
  induction a generalizing fs with
  | nil => rfl
  | cons w ws ih => exact ih (fwrite fs w.1 w.2)

/-- Applying the same write list twice gives the same readings as applying
it once (overwrite, never merge). -/
theorem lkp_applyW_idem (ws : List (FPath × FData)) (fs : FS) (p : FPath) :
    lkp (applyW ws (applyW ws fs)) p = lkp (applyW ws fs) p := by
  rw [lkp_applyW, lkp_applyW]
  rcases hl : lastW ws p with _ | v <;> simp [hl]

/-- A path is readable iff some entry carries it. -/
theorem lkp_isSome_iff_memKeys (fs : FS) (p : FPath) :
    (lkp fs p).isSome ↔ p ∈ fs.map Prod.fst := by
  induction fs with
  | nil => simp [lkp]
  | cons e es ih =>
    simp only [lkp, List.map_cons, List.mem_cons]
    by_cases he : e.1 = p
    · rw [if_pos he]
      constructor
      · intro _
        exact Or.inl he.symm
      · intro _
        rfl
    · rw [if_neg he, ih]
      constructor
      · intro h; exact Or.inr h
      · intro h
        rcases h with h | h
        · exact absurd h.symm he
        · exact h

/-! ### Template Parser (`parse_codex_template`, lines 81-122)

The parser raises `ValueError` in three places: marker not found, `shlex`
tokenization failure, and first-two-token validation failure.  There is no
error for reaching end-of-file while lines still carry the continuation
marker; the loop simply ends. -/

/-- Tokenization failures of POSIX `shlex.split`. -/
inductive ShErr where
  | noClosing
  | noEscaped
  deriving DecidableEq

/-- Lexer mode of `shlex`: outside quotes, in single quotes, in double
quotes. -/
inductive ShMode where
  | norm
  | single
  | double
  deriving DecidableEq

/-- State machine of POSIX-mode `shlex.split` (whitespace splitting, single
and double quotes, backslash escapes; no comment handling, matching
`shlex.split(s)`).  `cur` is the token being accumulated (`some []` after an
empty quoted string), `acc` the finished tokens. -/
def shlexAux : Chars → ShMode → Option Chars → List Chars → Except ShErr (List Chars)
  | [], .norm, cur, acc =>
    match cur with
    | some t => .ok (acc ++ [t])
    | none => .ok acc
  | [], .single, _, _ => .error .noClosing
  | [], .double, _, _ => .error .noClosing
  | c :: rest, .norm, cur, acc =>
    if isWs c then
      match cur with
      | some t => shlexAux rest .norm none (acc ++ [t])
      | none => shlexAux rest .norm none acc
    else if c = '\'' then shlexAux rest .single (some (cur.getD [])) acc
    else if c = '"' then shlexAux rest .double (some (cur.getD [])) acc
    else if c = '\\' then
      match rest with
      | [] => .error .noEscaped
      | d :: rest2 => shlexAux rest2 .norm (some (cur.getD [] ++ [d])) acc
    else shlexAux rest .norm (some (cur.getD [] ++ [c])) acc
  | c :: rest, .single, cur, acc =>
    if c = '\'' then shlexAux rest .norm cur acc
    else shlexAux rest .single (some (cur.getD [] ++ [c])) acc
  | c :: rest, .double, cur, acc =>
    if c = '"' then shlexAux rest .norm cur acc
    else if c = '\\' then
      match rest with
      | [] => .error .noEscaped
      | d :: rest2 =>
        if d = '\\' || d = '"' then shlexAux rest2 .double (some (cur.getD [] ++ [d])) acc
        else shlexAux rest2 .double (some (cur.getD [] ++ ['\\', d])) acc
    else shlexAux rest .double (some (cur.getD [] ++ [c])) acc

/-- Python `shlex.split` (POSIX mode, comments off). -/
def shlexSplit (s : Chars) : Except ShErr (List Chars) := shlexAux s .norm none []

/-- Errors of `parse_codex_template` (`ValueError` raise sites). -/
inductive TErr where
  | noCodexExec
  | lexError (e : ShErr)
  | badCommand
  deriving DecidableEq

/-- Update one key of the exported-environment mapping (Python dict
assignment: overwrite in place, insertion order preserved, last wins). -/
def envSet (env : List (Chars × Chars)) (k v : Chars) : List (Chars × Chars) :=
  if env.any (fun e => e.1 == k) then
    env.map (fun e => if e.1 == k then (k, v) else e)
  else env ++ [(k, v)]

/-- Parse one template line as an `export KEY=value` assignment
(lines 87-92 of the source). -/
def parseExportLine (ln : Chars) : Option (Chars × Chars) :=
  let stripped := strip ln
  if isPre (cs "export ") stripped && stripped.contains '=' then
    match splitFirst (cs "export ") stripped with
    | some pr =>
      match splitFirst ['='] pr.2 with
      | some kv => some (strip kv.1, stripChar '\'' (stripChar '"' (strip kv.2)))
      | none => none
    | none => none
  else none

/-- Collect all `export KEY=value` assignments, later ones overwriting. -/
def exportEnv (lines : List Chars) : List (Chars × Chars) :=
  lines.foldl
    (fun env ln =>
      match parseExportLine ln with
      | some kv => envSet env kv.1 kv.2
      | none => env)
    []

/-- Substring test (Python `pat in s`). -/
def hasSub (pat s : Chars) : Bool := (splitFirst pat s).isSome

/-- Index of the first line containing the two-word marker `codex exec`
(lines 94-98 of the source). -/
def findMarker (lines : List Chars) : Option Nat :=
  lines.findIdx? (hasSub (cs "codex exec"))

/-- Continuation-joining loop (lines 102-111 of the source): skip blank
lines, strip the trailing backslash from continued lines, stop at the first
non-continued line.  Reaching end-of-file just ends the accumulation. -/
def mergeCont : List Chars → List Chars
  | [] => []
  | ln :: rest =>
    let s := strip ln
    if s = [] then mergeCont rest
    else if s.getLast? = some '\\' then strip s.dropLast :: mergeCont rest
    else [s]

/-- Validation of the tokenized command (line 115 of the source): at least
two tokens, the first two being `codex` and `exec`. -/
def validTokens : List Chars → Bool
  | a :: b :: _ => decide (a = cs "codex") && decide (b = cs "exec")
  | _ => false

/-- Placeholder stripping (lines 120-121 of the source): a non-flag final
token is dropped, a flag final token is kept. -/
def stripPlaceholder (toks : List Chars) : List Chars :=
  match toks.getLast? with
  | some t => if isPre ['-'] t then toks else toks.dropLast
  | none => toks

/-- The template's lines: `splitlines` followed by per-line `rstrip`
(line 83 of the source). -/
def linesOf (text : Chars) : List Chars := (splitLines text).map rstrip

/-- Everything of `parse_codex_template` up to and including validation,
returning the exported environment and the unstripped token list. -/
def parseTokensOf (text : Chars) : Except TErr (List (Chars × Chars) × List Chars) :=
  match findMarker (linesOf text) with
  | none => .error .noCodexExec
  | some i =>
    match shlexSplit (joinSpace (mergeCont ((linesOf text).drop i))) with
    | .error e => .error (.lexError e)
    | .ok toks =>
      if validTokens toks then .ok (exportEnv (linesOf text), toks)
      else .error .badCommand

/-- Source `parse_codex_template` (lines 81-122): tokenize and
validate, then strip the trailing placeholder token. -/
def parse_codex_template (text : Chars) :
    Except TErr (List (Chars × Chars) × List Chars) :=
  (parseTokensOf text).map (fun r => (r.1, stripPlaceholder r.2))

/-! ### Change Detector: `parse_changed_paths` (lines 143-159) -/

/-- The rename separator of `git status --porcelain` payloads. -/
def sepArrow : Chars := cs " -> "

/-- One line of `git status --porcelain` output: strip trailing whitespace,
skip blank lines, drop the three status columns, keep only the right-hand
side of a rename payload, and build a relative path.  The `if rel_path:`
truthiness test of the source is always true for a `pathlib` path, so every
non-blank line contributes. -/
def statusLine (raw : Chars) : Option FPath :=
  let line := rstrip raw
  if line = [] then none
  else
    let payload := if 3 < line.length then line.drop 3 else []
    let payload2 :=
      match splitFirst sepArrow payload with
      | some pr => pr.2
      | none => payload
    some (toRelPath (strip payload2))

/-- Source `parse_changed_paths` (lines 143-159): the set of changed
and untracked paths, one contribution per non-blank status line, deduplicated
(the source accumulates into a Python `set`). -/
def parse_changed_paths (status : Chars) : List FPath :=
  ((splitLines status).filterMap statusLine).dedup

example : shlexSplit (cs "codex exec --flag hello") =
    .ok [cs "codex", cs "exec", cs "--flag", cs "hello"] := by rfl

example : shlexSplit (cs "a 'b c' \"d e\" ''") =
    .ok [cs "a", cs "b c", cs "d e", []] := by rfl

example : parse_codex_template (cs "export FOO=\"bar\"\ncodex exec --flag \\\n  value hello") =
    .ok ([(cs "FOO", cs "bar")], [cs "codex", cs "exec", cs "--flag", cs "value"]) := by rfl

example : parse_changed_paths (cs "M  src/a.py\nR  old.py -> new.py\n?? tests/test_new.py") =
    [[cs "src", cs "a.py"], [cs "new.py"], [cs "tests", cs "test_new.py"]] := by rfl

/-! ### Supporting lemmas for the parsing claims -/

theorem sepArrow_eq : sepArrow = [' ', '-', '>', ' '] := rfl

theorem arrowTail_eq : cs " ->" = [' ', '-', '>'] := rfl

theorem isPre_extend {s x : Chars} (h : isPre s x = true) (y : Chars) :
    isPre s (x ++ y) = true := by
  induction s generalizing x with
  | nil => rfl
  | cons c cs' ih =>
    cases x with
    | nil => simp [isPre] at h
    | cons d ds =>
      simp only [isPre, Bool.and_eq_true, decide_eq_true_eq] at h
      simp only [List.cons_append, isPre, Bool.and_eq_true, decide_eq_true_eq]
      exact ⟨h.1, ih h.2⟩

theorem isSuf_cons {s a : Chars} (c : Char) (h : isSuf s a = true) :
    isSuf s (c :: a) = true := by
  unfold isSuf at *
  rw [List.reverse_cons]
  exact isPre_extend h [c]

theorem lstrip_cons_nonws {c : Char} (h : isWs c = false) (t : Chars) :
    lstrip (c :: t) = c :: t := by
  simp [lstrip, h]

theorem rstrip_append_last (X b : Chars) {c : Char}
    (hc : b.getLast? = some c) (hw : isWs c = false) :
    rstrip (X ++ b) = X ++ b := by
  rcases hbr : b.reverse with _ | ⟨c', t⟩
  · have hb : b = [] := by simpa using congrArg List.reverse hbr
    rw [hb] at hc
    simp at hc
  · have hc' : c' = c := by
      have hh := List.head?_reverse b
      rw [hbr] at hh
      rw [hc] at hh
      simpa using hh
    have hstep : lstrip ((X ++ b).reverse) = (X ++ b).reverse := by
      rw [List.reverse_append, hbr]
      show lstrip (c' :: (t ++ X.reverse)) = _
      rw [lstrip_cons_nonws (hc' ▸ hw) (t ++ X.reverse)]
      rfl
    unfold rstrip
    rw [hstep, List.reverse_reverse]

theorem strip_eq_self {b : Chars} {cf cl : Char}
    (hf : b.head? = some cf) (hwf : isWs cf = false)
    (hl : b.getLast? = some cl) (hwl : isWs cl = false) :
    strip b = b := by
  unfold strip
  have h1 : rstrip b = b := by
    have := rstrip_append_last [] b hl hwl
    simpa using this
  rw [h1]
  rcases b with _ | ⟨c0, t⟩
  · simp at hf
  · have hc0 : c0 = cf := by simpa using hf
    exact lstrip_cons_nonws (hc0 ▸ hwf) t

/-- Splitting on the first rename separator after a separator-free left part
recovers the two sides: the straddle case is excluded by the left part not
ending in an incomplete separator. -/
theorem splitFirst_sepArrow (b : Chars) :
    ∀ a : Chars, splitFirst sepArrow a = none → isSuf (cs " ->") a = false →
      splitFirst sepArrow (a ++ sepArrow ++ b) = some (a, b) := by
  intro a
  induction a with
  | nil =>
    intro _ _
    show splitFirst sepArrow (sepArrow ++ b) = some ([], b)
    rw [sepArrow_eq]
    simp [splitFirst, isPre]
  | cons c a' ih =>
    intro hna hsuf
    have hpre : isPre sepArrow (c :: a') = false := by
      by_contra hcon
      rw [Bool.not_eq_false] at hcon
      unfold splitFirst at hna
      rw [if_pos hcon] at hna
      exact absurd hna (by simp)
    have hna' : splitFirst sepArrow a' = none := by
      unfold splitFirst at hna
      rw [if_neg (by simp [hpre])] at hna
      rcases hsp : splitFirst sepArrow a' with _ | pr
      · rfl
      · rw [hsp] at hna
        exact absurd hna (by simp)
    have hsuf' : isSuf (cs " ->") a' = false := by
      by_contra hcon
      rw [Bool.not_eq_false] at hcon
      rw [isSuf_cons c hcon] at hsuf
      exact absurd hsuf (by simp)
    have hmain : isPre sepArrow (c :: (a' ++ sepArrow ++ b)) = false := by
      by_contra hcon
      rw [Bool.not_eq_false] at hcon
      rcases a' with _ | ⟨d, _ | ⟨e, _ | ⟨f, t⟩⟩⟩
      · rw [sepArrow_eq] at hcon
        simp [isPre] at hcon
      · rw [sepArrow_eq] at hcon
        simp [isPre] at hcon
      · rw [sepArrow_eq] at hcon
        simp only [List.cons_append, List.nil_append, isPre, Bool.and_eq_true,
          decide_eq_true_eq] at hcon
        obtain ⟨h1, h2, h3, _⟩ := hcon
        rw [← h1, ← h2, ← h3, arrowTail_eq] at hsuf
        exact absurd hsuf (by decide)
      · rw [sepArrow_eq] at hcon
        simp only [List.cons_append, isPre, Bool.and_eq_true, decide_eq_true_eq] at hcon
        obtain ⟨h1, h2, h3, h4, _⟩ := hcon
        rw [sepArrow_eq] at hpre
        rw [← h1, ← h2, ← h3, ← h4] at hpre
        simp [isPre] at hpre
    have ih' := ih hna' hsuf'
    rw [List.append_assoc] at ih'
    have hmain' : isPre sepArrow (c :: (a' ++ (sepArrow ++ b))) = false := by
      rw [← List.append_assoc]
      exact hmain
    rw [List.append_assoc]
    show splitFirst sepArrow (c :: (a' ++ (sepArrow ++ b))) = some (c :: a', b)
    unfold splitFirst
    rw [if_neg (by simp [hmain']), ih']

/-- Contribution of one all-continued line to the merged command text. -/
def contFrag (ln : Chars) : Option Chars :=
  if strip ln = [] then none else some (strip (strip ln).dropLast)

/-- When every non-blank line still carries the continuation marker, the
joining loop consumes every line and end-of-file simply ends the
accumulation, with no error. -/
theorem mergeCont_all_cont :
    ∀ ls : List Chars,
      (∀ ln ∈ ls, strip ln ≠ [] → (strip ln).getLast? = some '\\') →
      mergeCont ls = ls.filterMap contFrag := by
  intro ls
  induction ls with
  | nil => intro _; rfl
  | cons ln rest ih =>
    intro h
    by_cases hb : strip ln = []
    · simp only [mergeCont, hb, if_pos rfl]
      rw [List.filterMap_cons]
      simp only [contFrag, hb, if_pos rfl]
      simp only [reduceIte]
      exact ih (fun l hl => h l (List.mem_cons_of_mem ln hl))
    · have hlast : (strip ln).getLast? = some '\\' := h ln (by simp) hb
      simp only [mergeCont, if_neg hb, hlast, if_pos rfl]
      rw [List.filterMap_cons]
      simp only [contFrag, if_neg hb]
      rw [ih (fun l hl => h l (List.mem_cons_of_mem ln hl))]
      simp

/-- A template whose single line — the command-marker line — ends with the
continuation marker, so no non-continued terminal line exists. -/
def tmpl0 : Chars := cs "codex exec --flag \\"

/-- C2 counterexample: a template in which every line from the
command-marker line to end-of-file ends with the continuation marker is
parsed successfully — the parser returns a command instead of failing. -/
theorem c2_counterexample :
    linesOf tmpl0 = [cs "codex exec --flag \\"] ∧
    findMarker (linesOf tmpl0) = some 0 ∧
    (cs "codex exec --flag \\").getLast? = some '\\' ∧
    parse_codex_template tmpl0 = .ok ([], [cs "codex", cs "exec", cs "--flag"]) := by
  refine ⟨rfl, rfl, rfl, rfl⟩

/-- C2 (amended): when every line from the command-marker line on still
carries the continuation marker (or is blank), reaching end-of-file does not
raise an open-continuation error; the accumulated backslash-stripped
fragments are joined, tokenized and validated exactly as for a terminated
command. -/
theorem c2_amended_eof_continuation (text : Chars) (i : Nat)
    (hm : findMarker (linesOf text) = some i)
    (hc : ∀ ln ∈ (linesOf text).drop i, strip ln ≠ [] → (strip ln).getLast? = some '\\') :
    parse_codex_template text =
      (match shlexSplit (joinSpace (((linesOf text).drop i).filterMap contFrag)) with
        | .error e => .error (.lexError e)
        | .ok toks =>
          if validTokens toks then .ok (exportEnv (linesOf text), stripPlaceholder toks)
          else .error .badCommand) := by
  unfold parse_codex_template parseTokensOf
  rw [hm]
  dsimp only
  rw [mergeCont_all_cont ((linesOf text).drop i) hc]
  rcases hs : shlexSplit (joinSpace (((linesOf text).drop i).filterMap contFrag)) with e | toks
  · simp [Except.map]
  · by_cases hv : validTokens toks = true
    · simp [hv, Except.map]
    · simp [hv, Except.map]

/-- C2 amended witness: the all-continued single-line template of the
counterexample instantiates the amended statement. -/
theorem c2_amended_witness :
    parse_codex_template tmpl0 =
      (match shlexSplit (joinSpace (((linesOf tmpl0).drop 0).filterMap contFrag)) with
        | .error e => .error (.lexError e)
        | .ok toks =>
          if validTokens toks then .ok (exportEnv (linesOf tmpl0), stripPlaceholder toks)
          else .error .badCommand) :=
  c2_amended_eof_continuation tmpl0 0 rfl (by decide)

/-- C5: for every working-tree status output, a rename entry with payload
`a -> b` contributes exactly the destination path `b` to the ChangeSet and
never the source path `a`; and the ChangeSet is a set, so a
renamed-then-modified file appears exactly once, keyed by its destination
path.  The hypotheses state that the status code occupies the three leading
columns, that the source side contains no rename separator and does not end
in an incomplete separator, and that the destination side carries no surrounding
whitespace. -/
theorem c5_rename_keeps_destination :
    (∀ status : Chars, (parse_changed_paths status).Nodup) ∧
    (∀ code a b : Chars, ∀ cf cl : Char,
      code.length = 3 →
      splitFirst sepArrow a = none →
      isSuf (cs " ->") a = false →
      b.head? = some cf → isWs cf = false →
      b.getLast? = some cl → isWs cl = false →
      statusLine (code ++ a ++ sepArrow ++ b) = some (toRelPath b) ∧
      (toRelPath a ≠ toRelPath b →
        statusLine (code ++ a ++ sepArrow ++ b) ≠ some (toRelPath a))) := by
  constructor
  · intro status
    exact List.nodup_dedup _
  · intro code a b cf cl hcode hna hsuf hf hwf hl hwl
    have hr : rstrip (code ++ a ++ sepArrow ++ b) = code ++ a ++ sepArrow ++ b :=
      rstrip_append_last (code ++ a ++ sepArrow) b hl hwl
    have hne0 : ¬ (code ++ a ++ sepArrow ++ b) = [] := by
      intro h
      have hlen := congrArg List.length h
      simp [sepArrow_eq] at hlen
    have hlen3 : 3 < (code ++ a ++ sepArrow ++ b).length := by
      simp only [List.length_append, sepArrow_eq, List.length_cons, List.length_nil]
      omega
    have hassoc : code ++ a ++ sepArrow ++ b = code ++ (a ++ (sepArrow ++ b)) := by
      simp [List.append_assoc]
    have hdrop : (code ++ a ++ sepArrow ++ b).drop 3 = a ++ (sepArrow ++ b) := by
      rw [hassoc, ← hcode, List.drop_left]
    have hsp : splitFirst sepArrow (a ++ (sepArrow ++ b)) = some (a, b) := by
      have hx := splitFirst_sepArrow b a hna hsuf
      rw [List.append_assoc] at hx
      exact hx
    have hmainEq : statusLine (code ++ a ++ sepArrow ++ b) = some (toRelPath b) := by
      unfold statusLine
      rw [hr]
      rw [if_neg hne0, if_pos hlen3, hdrop]
      dsimp only
      rw [hsp]
      dsimp only
      rw [strip_eq_self hf hwf hl hwl]
    refine ⟨hmainEq, ?_⟩
    intro hne hcontra
    rw [hmainEq] at hcontra
    have : toRelPath b = toRelPath a := by
      simpa using hcontra
    exact hne this.symm

/-- C5 witness: a concrete rename status line `R  old.py -> new.py`
contributes `new.py` and not `old.py`, and a parsed ChangeSet is
duplicate-free. -/
theorem c5_witness :
    statusLine (cs "R  " ++ cs "old.py" ++ sepArrow ++ cs "new.py") =
      some (toRelPath (cs "new.py")) ∧
    statusLine (cs "R  " ++ cs "old.py" ++ sepArrow ++ cs "new.py") ≠
      some (toRelPath (cs "old.py")) ∧
    (parse_changed_paths (cs "R  old.py -> new.py")).Nodup := by
  have h := c5_rename_keeps_destination.2 (cs "R  ") (cs "old.py") (cs "new.py") 'n' 'y'
    (by decide) (by decide) (by decide) (by decide) (by decide) (by decide) (by decide)
  exact ⟨h.1, h.2 (by decide), c5_rename_keeps_destination.1 _⟩

/-- C6: for every successfully tokenized and validated template, a final
token starting with the flag-prefix character leaves the token sequence
untouched, and a final token not starting with it is dropped — and that
single token is the only one removed. -/
theorem c6_placeholder_stripping (text : Chars) (env : List (Chars × Chars))
    (toks : List Chars) (t : Chars)
    (hp : parseTokensOf text = .ok (env, toks))
    (ht : toks.getLast? = some t) :
    (isPre ['-'] t = true → parse_codex_template text = .ok (env, toks)) ∧
    (isPre ['-'] t = false →
      parse_codex_template text = .ok (env, toks.dropLast) ∧
      toks.dropLast.length + 1 = toks.length) := by
  constructor
  · intro hflag
    unfold parse_codex_template
    rw [hp]
    simp [Except.map, stripPlaceholder, ht, hflag]
  · intro hnot
    refine ⟨?_, ?_⟩
    · unfold parse_codex_template
      rw [hp]
      simp [Except.map, stripPlaceholder, ht, hnot]
    · rcases toks with _ | ⟨x, xs⟩
      · simp at ht
      · simp [List.length_dropLast]

/-- C6 witness: a template ending in the non-flag placeholder `hello` has
exactly that token dropped. -/
theorem c6_witness :
    parse_codex_template (cs "codex exec --flag hello") =
      .ok ([], [cs "codex", cs "exec", cs "--flag"]) ∧
    ([cs "codex", cs "exec", cs "--flag", cs "hello"] : List Chars).dropLast.length + 1 = 4 := by
  have h := (c6_placeholder_stripping (cs "codex exec --flag hello") []
    [cs "codex", cs "exec", cs "--flag", cs "hello"] (cs "hello")
    (by rfl) (by rfl)).2 (by decide)
  exact ⟨h.1, h.2⟩

/-! ### Pipeline Driver loop (`main`, lines 361-455)

The per-item body of `main` fetches the issue JSON, the PR JSON and the
patch text with `gh_api_json` / `gh_api_text` (lines 372-377), each of which
raises `RuntimeError` on failure (`run_cmd`, lines 27-39).  The `for` loop
carries no `try`/`except`, so a raised error propagates out of `main`.  The
model keeps the loop skeleton and the three fallible fetches; the rest of
the body (file writes, prompt construction, agent invocation, export) is
abstracted into the per-item record the loop accumulates. -/

/-- One work-list entry: repository, issue number, PR number. -/
structure WorkItem where
  repo : Chars
  issueNum : Nat
  prNum : Nat
  deriving DecidableEq

/-- The driver loop over the work list: for each item, fetch issue JSON, PR
JSON and patch text in order; any raised fetch error propagates immediately,
ending the whole run (no handler in the loop). -/
def processItems (fetchIssue fetchPr fetchPatch : WorkItem → Except Chars Chars) :
    List WorkItem → Except Chars (List (WorkItem × Chars × Chars × Chars))
  | [] => .ok []
  | w :: rest => do
    let issue ← fetchIssue w
    let pr ← fetchPr w
    let patch ← fetchPatch w
    let out ← processItems fetchIssue fetchPr fetchPatch rest
    .ok ((w, issue, pr, patch) :: out)

/-- A work list of two items and fetchers that fail on the first item's
issue lookup and succeed everywhere else. -/
def wA : WorkItem := ⟨cs "acme/widgets", 1, 10⟩

def wB : WorkItem := ⟨cs "acme/widgets", 2, 20⟩

def fetchIssue0 (w : WorkItem) : Except Chars Chars :=
  if w.issueNum = 1 then .error (cs "boom") else .ok (cs "{}")

def fetchOk (_ : WorkItem) : Except Chars Chars := .ok (cs "{}")

/-- C1 counterexample: with the first item's metadata fetch failing and the
second item's fetches all succeeding, the run terminates with the error —
the second WorkItem is never processed, so the failure is not contained to
the failing item. -/
theorem c1_counterexample :
    fetchIssue0 wB = .ok (cs "{}") ∧
    processItems fetchIssue0 fetchOk fetchOk [wB] =
      .ok [(wB, cs "{}", cs "{}", cs "{}")] ∧
    processItems fetchIssue0 fetchOk fetchOk [wA, wB] = .error (cs "boom") := by
  refine ⟨rfl, rfl, rfl⟩

/-- C1 (amended): a failure of any of the three metadata fetches for a
WorkItem terminates the entire run with that error; the remaining WorkItems
are not processed. -/
theorem c1_amended_fetch_failure_fatal
    (fetchIssue fetchPr fetchPatch : WorkItem → Except Chars Chars)
    (w : WorkItem) (rest : List WorkItem) (e : Chars) :
    (fetchIssue w = .error e →
      processItems fetchIssue fetchPr fetchPatch (w :: rest) = .error e) ∧
    (∀ i, fetchIssue w = .ok i → fetchPr w = .error e →
      processItems fetchIssue fetchPr fetchPatch (w :: rest) = .error e) ∧
    (∀ i p, fetchIssue w = .ok i → fetchPr w = .ok p → fetchPatch w = .error e →
      processItems fetchIssue fetchPr fetchPatch (w :: rest) = .error e) := by
  refine ⟨?_, ?_, ?_⟩
  · intro h
    simp only [processItems, h]
    rfl
  · intro i hi h
    simp only [processItems, hi, h]
    rfl
  · intro i p hi hp h
    simp only [processItems, hi, hp, h]
    rfl

/-- C1 amended witness: instantiated at the two-item counterexample list. -/
theorem c1_amended_witness :
    processItems fetchIssue0 fetchOk fetchOk [wA, wB] = .error (cs "boom") :=
  (c1_amended_fetch_failure_fatal fetchIssue0 fetchOk fetchOk wA [wB] (cs "boom")).1 rfl

/-! ### Change Detector: `collect_special_files` (lines 162-181) -/

/-- Docker descriptor check (line 173): the name is exactly `Dockerfile` or
starts with `Dockerfile.`. -/
def isDockerName (name : Chars) : Bool :=
  decide (name = cs "Dockerfile") || isPre (cs "Dockerfile.") name

/-- Test-file naming convention check (line 176): the lowercased name starts
with `test` and the `pathlib` suffix is `.py`. -/
def isTestConvention (name : Chars) : Bool :=
  isPre (cs "test") (lowerChars name) && decide (suffixOf name = cs ".py")

/-- Tests-directory check (line 179): the path has a first component, it is
`tests`, and the suffix is `.py`. -/
def isTestsDirFile (rel : FPath) : Bool :=
  match rel.head? with
  | some c0 => decide (c0 = cs "tests") && decide (suffixOf (nameOf rel) = cs ".py")
  | none => false

/-- Combined special-file predicate. -/
def isSpecial (rel : FPath) : Bool :=
  isDockerName (nameOf rel) || isTestConvention (nameOf rel) || isTestsDirFile rel

/-- The walk of `collect_special_files`: every entry of the recursive tree
walk is a (relative path, is-regular-file) pair; non-files are skipped, then
the three keep rules apply in order. -/
def specialWalk : List (FPath × Bool) → List FPath
  | [] => []
  | (_, false) :: rest => specialWalk rest
  | (rel, true) :: rest =>
    if isDockerName (nameOf rel) then rel :: specialWalk rest
    else if isTestConvention (nameOf rel) then rel :: specialWalk rest
    else if isTestsDirFile rel then rel :: specialWalk rest
    else specialWalk rest

/-- Source `collect_special_files` (lines 162-181): the walk's kept
paths as a set. -/
def collect_special_files (entries : List (FPath × Bool)) : List FPath :=
  (specialWalk entries).dedup

theorem mem_specialWalk (entries : List (FPath × Bool)) (p : FPath) :
    p ∈ specialWalk entries ↔ ((p, true) ∈ entries ∧ isSpecial p = true) := by
  induction entries with
  | nil => simp [specialWalk]
  | cons e rest ih =>
    rcases e with ⟨rel, isF⟩
    cases isF with
    | false =>
      show p ∈ specialWalk rest ↔ _
      rw [ih]
      simp
    | true =>
      by_cases h1 : isDockerName (nameOf rel) = true
      · show p ∈ (if isDockerName (nameOf rel) then rel :: specialWalk rest
          else if isTestConvention (nameOf rel) then rel :: specialWalk rest
          else if isTestsDirFile rel then rel :: specialWalk rest
          else specialWalk rest) ↔ _
        rw [if_pos h1]
        constructor
        · intro hm
          rcases List.mem_cons.mp hm with rfl | hm'
          · exact ⟨List.mem_cons_self _ _, by simp [isSpecial, h1]⟩
          · rcases ih.mp hm' with ⟨hmem, hsp⟩
            exact ⟨List.mem_cons_of_mem _ hmem, hsp⟩
        · rintro ⟨hmem, hsp⟩
          rcases List.mem_cons.mp hmem with heq | hmem'
          · have : p = rel := (Prod.mk.injEq ..).mp heq |>.1
            exact this ▸ List.mem_cons_self _ _
          · exact List.mem_cons_of_mem _ (ih.mpr ⟨hmem', hsp⟩)
      · by_cases h2 : isTestConvention (nameOf rel) = true
        · show p ∈ (if isDockerName (nameOf rel) then rel :: specialWalk rest
            else if isTestConvention (nameOf rel) then rel :: specialWalk rest
            else if isTestsDirFile rel then rel :: specialWalk rest
            else specialWalk rest) ↔ _
          rw [if_neg h1, if_pos h2]
          constructor
          · intro hm
            rcases List.mem_cons.mp hm with rfl | hm'
            · exact ⟨List.mem_cons_self _ _, by simp [isSpecial, h2]⟩
            · rcases ih.mp hm' with ⟨hmem, hsp⟩
              exact ⟨List.mem_cons_of_mem _ hmem, hsp⟩
          · rintro ⟨hmem, hsp⟩
            rcases List.mem_cons.mp hmem with heq | hmem'
            · have : p = rel := (Prod.mk.injEq ..).mp heq |>.1
              exact this ▸ List.mem_cons_self _ _
            · exact List.mem_cons_of_mem _ (ih.mpr ⟨hmem', hsp⟩)
        · by_cases h3 : isTestsDirFile rel = true
          · show p ∈ (if isDockerName (nameOf rel) then rel :: specialWalk rest
              else if isTestConvention (nameOf rel) then rel :: specialWalk rest
              else if isTestsDirFile rel then rel :: specialWalk rest
              else specialWalk rest) ↔ _
            rw [if_neg h1, if_neg h2, if_pos h3]
            constructor
            · intro hm
              rcases List.mem_cons.mp hm with rfl | hm'
              · exact ⟨List.mem_cons_self _ _, by simp [isSpecial, h3]⟩
              · rcases ih.mp hm' with ⟨hmem, hsp⟩
                exact ⟨List.mem_cons_of_mem _ hmem, hsp⟩
            · rintro ⟨hmem, hsp⟩
              rcases List.mem_cons.mp hmem with heq | hmem'
              · have : p = rel := (Prod.mk.injEq ..).mp heq |>.1
                exact this ▸ List.mem_cons_self _ _
              · exact List.mem_cons_of_mem _ (ih.mpr ⟨hmem', hsp⟩)
          · show p ∈ (if isDockerName (nameOf rel) then rel :: specialWalk rest
              else if isTestConvention (nameOf rel) then rel :: specialWalk rest
              else if isTestsDirFile rel then rel :: specialWalk rest
              else specialWalk rest) ↔ _
            rw [if_neg h1, if_neg h2, if_neg h3, ih]
            have hns : isSpecial rel = false := by
              simp [isSpecial, Bool.or_eq_true]
              exact ⟨⟨by simpa using h1, by simpa using h2⟩, by simpa using h3⟩
            constructor
            · rintro ⟨hmem, hsp⟩
              exact ⟨List.mem_cons_of_mem _ hmem, hsp⟩
            · rintro ⟨hmem, hsp⟩
              rcases List.mem_cons.mp hmem with heq | hmem'
              · have hpr : p = rel := (Prod.mk.injEq ..).mp heq |>.1
                rw [hpr, hns] at hsp
                exact absurd hsp (by simp)
              · exact ⟨hmem', hsp⟩

theorem isTestsDirFile_iff (p : FPath) :
    isTestsDirFile p = true ↔
      (p.head? = some (cs "tests") ∧ suffixOf (nameOf p) = cs ".py") := by
  unfold isTestsDirFile
  rcases hh : p.head? with _ | c0
  · simp
  · simp only [Bool.and_eq_true, decide_eq_true_eq]
    constructor
    · rintro ⟨h1, h2⟩
      exact ⟨by rw [h1], h2⟩
    · rintro ⟨h1, h2⟩
      refine ⟨?_, h2⟩
      simpa using h1

/-- C8: the special-file set contains exactly those regular files of the
walk whose name is the Docker descriptor name or starts with it followed by
a dot, or whose name satisfies the test-file naming convention (lowercased
prefix `test`, suffix `.py`), or whose first path component is the `tests`
directory with suffix `.py`; nothing else is selected. -/
theorem c8_special_file_selection (entries : List (FPath × Bool)) (p : FPath) :
    p ∈ collect_special_files entries ↔
      ((p, true) ∈ entries ∧
        (nameOf p = cs "Dockerfile" ∨
         isPre (cs "Dockerfile.") (nameOf p) = true ∨
         (isPre (cs "test") (lowerChars (nameOf p)) = true ∧
           suffixOf (nameOf p) = cs ".py") ∨
         (p.head? = some (cs "tests") ∧ suffixOf (nameOf p) = cs ".py"))) := by
  unfold collect_special_files
  rw [List.mem_dedup, mem_specialWalk]
  have hiff : isSpecial p = true ↔
      (nameOf p = cs "Dockerfile" ∨
       isPre (cs "Dockerfile.") (nameOf p) = true ∨
       (isPre (cs "test") (lowerChars (nameOf p)) = true ∧
         suffixOf (nameOf p) = cs ".py") ∨
       (p.head? = some (cs "tests") ∧ suffixOf (nameOf p) = cs ".py")) := by
    unfold isSpecial isDockerName isTestConvention
    rw [Bool.or_eq_true, Bool.or_eq_true, Bool.or_eq_true, Bool.and_eq_true,
      isTestsDirFile_iff]
    simp only [decide_eq_true_eq]
    tauto
  rw [hiff]

/-- C8 witness: a mixed walk — a root `Dockerfile`, a variant
`Dockerfile.dev`, a nested `tests/test_a.py`, a top-level `testX.py`, an
ordinary source file, and a directory entry — selects exactly the special
files. -/
theorem c8_witness :
    ([cs "Dockerfile"] ∈ collect_special_files
      [([cs "Dockerfile"], true), ([cs "Dockerfile.dev"], true),
       ([cs "tests", cs "test_a.py"], true), ([cs "testX.py"], true),
       ([cs "src", cs "main.py"], true), ([cs "tests"], false)]) ∧
    ¬ ([cs "src", cs "main.py"] ∈ collect_special_files
      [([cs "Dockerfile"], true), ([cs "Dockerfile.dev"], true),
       ([cs "tests", cs "test_a.py"], true), ([cs "testX.py"], true),
       ([cs "src", cs "main.py"], true), ([cs "tests"], false)]) := by
  constructor
  · exact (c8_special_file_selection _ _).mpr ⟨by decide, by decide⟩
  · intro hmem
    have h := (c8_special_file_selection _ _).mp hmem
    revert h
    decide

/-! ### The Summary record (`main`, lines 422-436) -/

/-- Python set union: the left set's elements, then the right set's
elements not already present (line 424, `changed_paths | special`). -/
def unionPaths (a b : List FPath) : List FPath :=
  a ++ b.filter (fun p => decide (p ∉ a))

/-- The Summary fields derived from the ChangeSet (lines 427-436): counts of
the changed set and of the kept union. -/
structure Summary where
  repo : Chars
  issueNumber : Nat
  prNumber : Nat
  changedCount : Nat
  keptCount : Nat
  deriving DecidableEq

/-- Summary construction in `main`: `changed_paths` from the status query,
`keep_paths` the union of changed and special files, counted with `len`. -/
def mkSummary (item : WorkItem) (status : Chars)
    (specialEntries : List (FPath × Bool)) : Summary :=
  ⟨item.repo, item.issueNum, item.prNum,
    (parse_changed_paths status).length,
    (unionPaths (parse_changed_paths status)
      (collect_special_files specialEntries)).length⟩

/-- C10: the changed set is a subset of the kept union, so every Summary
record has `changed_files_count ≤ kept_files_count`. -/
theorem c10_changed_le_kept (item : WorkItem) (status : Chars)
    (specialEntries : List (FPath × Bool)) :
    (∀ p, p ∈ parse_changed_paths status →
      p ∈ unionPaths (parse_changed_paths status)
        (collect_special_files specialEntries)) ∧
    (mkSummary item status specialEntries).changedCount ≤
      (mkSummary item status specialEntries).keptCount := by
  constructor
  · intro p hp
    exact List.mem_append.mpr (Or.inl hp)
  · show (parse_changed_paths status).length ≤ (unionPaths _ _).length
    unfold unionPaths
    rw [List.length_append]
    exact Nat.le_add_right ..

/-- C10 witness: a one-line status and a walk with a `Dockerfile`. -/
theorem c10_witness :
    [cs "a.py"] ∈ unionPaths (parse_changed_paths (cs "M  a.py"))
        (collect_special_files [([cs "Dockerfile"], true)]) ∧
    (mkSummary ⟨cs "acme/widgets", 42, 99⟩ (cs "M  a.py")
        [([cs "Dockerfile"], true)]).changedCount ≤
      (mkSummary ⟨cs "acme/widgets", 42, 99⟩ (cs "M  a.py")
        [([cs "Dockerfile"], true)]).keptCount := by
  have h := c10_changed_le_kept ⟨cs "acme/widgets", 42, 99⟩ (cs "M  a.py")
    [([cs "Dockerfile"], true)]
  exact ⟨h.1 [cs "a.py"] (by decide), h.2⟩

/-! ### Bundle Assembler: `copy_repo_files` (lines 184-192) and
`create_checker_bundle` (lines 195-264)

Paths are export-root-relative: `files/<rel>` for the ChangeSet copies,
`bundle/<name>` for the checker bundle, `<name>` for the root mirrors.
`create_checker_bundle` is modelled as the write list it performs, with
every read staged against the intermediate filesystem state exactly as in
the source: the issue JSON is written first (lines 214-229), then the
Dockerfile is read from `files/` and mirrored (lines 231-236), then the
test files found under `files/` are flattened in sorted order with
first-seen-wins on basename (lines 238-250), then the bundle issue JSON is
re-read and mirrored at the export root (lines 252-254). -/

/-- Issue record: the fields `create_checker_bundle` reads.  An absent
field is `none`; a present JSON string is `some` of its characters. -/
structure IssueRec where
  number : Nat
  htmlUrl : Option Chars
  url : Option Chars
  deriving DecidableEq

/-- PR record, projected to `pr.get("base", {}).get("sha", "")` and
`pr.get("head", {}).get("sha", "")`: `none` when the lookup chain defaults. -/
structure PrRec where
  baseSha : Option Chars
  headSha : Option Chars
  deriving DecidableEq

/-- Python `x or fallback` on an optional string: an absent value or an
empty string (both falsy) yield the fallback. -/
def pyOrStr (a : Option Chars) (fb : Chars) : Chars :=
  match a with
  | some s => if s = [] then fb else s
  | none => fb

/-- Line 210 of the source:
`issue.get("html_url") or issue.get("url") or ""`. -/
def issueUrl (i : IssueRec) : Chars := pyOrStr i.htmlUrl (pyOrStr i.url [])

/-- Modelled from the claim's words, for the refinement comparison of C7:
the url falls back to the secondary field only when the primary is absent. -/
def issueUrlSpec (i : IssueRec) : Chars := i.htmlUrl.getD (i.url.getD [])

/-- Inputs of one Bundle Assembler run: the ChangeSet, the working tree it
is copied from, the issue and PR records, and the raw patch text. -/
structure AsmInput where
  changeSet : List FPath
  repoTree : FS
  issue : IssueRec
  pr : PrRec
  patch : Chars

def filesDirName : Chars := cs "files"

def bundleDirName : Chars := cs "bundle"

/-- A path under `files/`. -/
def filesP (rel : FPath) : FPath := filesDirName :: rel

/-- A path directly under `bundle/`. -/
def bundleP (name : Chars) : FPath := [bundleDirName, name]

/-- A path at the export root. -/
def rootP (name : Chars) : FPath := [name]

/-- The bundle issue file name `issue_<number>.json` (line 225). -/
def issueFileName (n : Nat) : Chars :=
  cs "issue_" ++ (Nat.toDigits 10 n ++ cs ".json")

/-- The fixed Dockerfile mirror name (lines 232-233). -/
def dockerDstName : Chars := cs "codex.dockerfile"

/-- The issue-record JSON written to `bundle/issue_<number>.json`
(lines 214-224): exactly the fields number, url, and a single linked-PR
record of base sha, head sha and patch text. -/
def bundleIssueData (inp : AsmInput) : FData :=
  .issueJson inp.issue.number (issueUrl inp.issue)
    (inp.pr.baseSha.getD []) (inp.pr.headSha.getD []) inp.patch

/-- The writes of `copy_repo_files` (lines 184-192): the ChangeSet as a set,
in sorted order, skipping paths that do not exist as regular files in the
working tree at copy time. -/
def copyRepoWrites (repo : FS) (rels : List FPath) : List (FPath × FData) :=
  (isortP rels.dedup).filterMap
    (fun rel => (lkp repo rel).map (fun c => (filesP rel, c)))

/-- Source `copy_repo_files` (lines 184-192), with `files/` as the destination as
in `main` (line 425).  The function is total: a vanished path contributes no
write and raises nothing. -/
def copy_repo_files (repo : FS) (rels : List FPath) (fs : FS) : FS :=
  applyW (copyRepoWrites repo rels) fs

/-- Glob name pattern of `rglob("test*.py")`: starts with `test`, ends with
`.py` (case-sensitive, as glob matching is). -/
def testFileName (n : Chars) : Bool := isPre (cs "test") n && isSuf (cs ".py") n

/-- A key that `files_dir.rglob("test*.py")` can produce: a path under
`files/` with at least one further component whose final component matches
the test pattern. -/
def underFilesTest (p : FPath) : Bool :=
  match p with
  | d :: _ :: _ => decide (d = filesDirName) && testFileName (nameOf p)
  | _ => false

/-- The sorted list of test files under `files/` (line 241,
`sorted(files_dir.rglob("test*.py"))`). -/
def testKeys (fs : FS) : List FPath :=
  isortP (((fs.map Prod.fst).filter underFilesTest).dedup)

/-- The flattening loop (lines 238-250): process test files in order,
skipping any whose basename was already seen, otherwise copying the file's
bytes to `bundle/<basename>` and to the export root.  Reads come from the
state `fs0` the loop started with (its own writes land outside `files/`). -/
def flattenGo (fs0 : FS) : List FPath → List Chars → List (FPath × FData)
  | [], _ => []
  | t :: ts, seen =>
    if nameOf t ∈ seen then flattenGo fs0 ts seen
    else
      match lkp fs0 t with
      | some c =>
        (bundleP (nameOf t), c) :: (rootP (nameOf t), c) ::
          flattenGo fs0 ts (nameOf t :: seen)
      | none => flattenGo fs0 ts (nameOf t :: seen)

/-- The Dockerfile mirroring writes (lines 231-236): if `files/Dockerfile`
was read as a regular file, copy it to `bundle/codex.dockerfile` and to the
export root. -/
def ccbDockerWrites (c? : Option FData) : List (FPath × FData) :=
  match c? with
  | some c => [(bundleP dockerDstName, c), (rootP dockerDstName, c)]
  | none => []

/-- The root issue mirror write (lines 252-254): copy the bundle issue JSON
just written to the export root. -/
def ccbRootIssueWrites (n : Nat) (c? : Option FData) : List (FPath × FData) :=
  match c? with
  | some c => [(rootP (issueFileName n), c)]
  | none => []

/-- State after the bundle issue JSON write (lines 214-229). -/
def ccbStage1 (inp : AsmInput) (g : FS) : FS :=
  fwrite g (bundleP (issueFileName inp.issue.number)) (bundleIssueData inp)

/-- The Dockerfile writes, reading `files/Dockerfile` from stage 1. -/
def ccbDw (inp : AsmInput) (g : FS) : List (FPath × FData) :=
  ccbDockerWrites (lkp (ccbStage1 inp g) (filesP [cs "Dockerfile"]))

/-- State after the Dockerfile mirroring (line 236). -/
def ccbStage2 (inp : AsmInput) (g : FS) : FS :=
  applyW (ccbDw inp g) (ccbStage1 inp g)

/-- The test-flattening writes (lines 238-250), reading from stage 2. -/
def ccbFw (inp : AsmInput) (g : FS) : List (FPath × FData) :=
  flattenGo (ccbStage2 inp g) (testKeys (ccbStage2 inp g)) []

/-- State after the test flattening (line 250). -/
def ccbStage3 (inp : AsmInput) (g : FS) : FS :=
  applyW (ccbFw inp g) (ccbStage2 inp g)

/-- The root issue mirror, re-reading the bundle issue JSON from stage 3. -/
def ccbRw (inp : AsmInput) (g : FS) : List (FPath × FData) :=
  ccbRootIssueWrites inp.issue.number
    (lkp (ccbStage3 inp g) (bundleP (issueFileName inp.issue.number)))

/-- The write list of `create_checker_bundle` (lines 195-264), with each
read staged against the state left by the preceding writes. -/
def ccbWrites (inp : AsmInput) (g : FS) : List (FPath × FData) :=
  (bundleP (issueFileName inp.issue.number), bundleIssueData inp) ::
    (ccbDw inp g ++ ccbFw inp g ++ ccbRw inp g)

/-- Source `create_checker_bundle` (lines 195-264) as a filesystem transformer. -/
def create_checker_bundle (inp : AsmInput) (fs : FS) : FS :=
  applyW (ccbWrites inp fs) fs

/-- One Bundle Assembler run as invoked by `main` (lines 425 and 439):
copy the ChangeSet into `files/`, then create the checker bundle. -/
def runAssembler (inp : AsmInput) (fs : FS) : FS :=
  create_checker_bundle inp (copy_repo_files inp.repoTree inp.changeSet fs)

theorem filesP_inj {a b : FPath} (h : filesP a = filesP b) : a = b := by
  simpa [filesP] using h

theorem rootP_ne_bundleP (a b : Chars) : rootP a ≠ bundleP b := by
  simp [rootP, bundleP]

theorem bundleP_ne_filesKey (nm c0 : Chars) (rest : List Chars) :
    bundleP nm ≠ filesDirName :: c0 :: rest := by
  intro h
  injection h with h1 _
  exact absurd h1 (by decide)

theorem rootP_ne_filesKey (nm c0 : Chars) (rest : List Chars) :
    rootP nm ≠ filesDirName :: c0 :: rest := by
  intro h
  injection h with _ h2
  exact absurd h2 (by simp)

theorem bundleP_ne_filesP (nm : Chars) (rel : FPath) : bundleP nm ≠ filesP rel := by
  intro h
  injection h with h1 _
  exact absurd h1 (by decide)

theorem testFileName_issueFileName (n : Nat) :
    testFileName (issueFileName n) = false := rfl

theorem dockerDstName_ne_issueFileName (n : Nat) :
    dockerDstName ≠ issueFileName n := by
  intro h
  have h1 : dockerDstName.head? = some 'c' := rfl
  have h2 : (issueFileName n).head? = some 'i' := rfl
  rw [h, h2] at h1
  exact absurd h1 (by decide)

theorem lastW_eq_none_of_no_key (ws : List (FPath × FData)) (p : FPath)
    (h : ∀ w ∈ ws, w.1 ≠ p) : lastW ws p = none := by
  induction ws with
  | nil => rfl
  | cons w ws ih =>
    have htail := ih (fun w' hw' => h w' (List.mem_cons_of_mem _ hw'))
    simp only [lastW, htail]
    rw [if_neg (h w (List.mem_cons_self ..))]

theorem lastW_append (a b : List (FPath × FData)) (p : FPath) :
    lastW (a ++ b) p =
      match lastW b p with
      | some v => some v
      | none => lastW a p := by
  induction a with
  | nil =>
    show lastW b p = _
    rcases h : lastW b p with _ | v <;> simp [h, lastW]
  | cons w ws ih =>
    show lastW (w :: (ws ++ b)) p = _
    simp only [lastW, ih]
    rcases lastW b p with _ | v <;> rcases lastW ws p with _ | v' <;> simp

/-! ### C9: vanished paths are skipped, present paths are copied -/

theorem lastW_copyRepoWrites_not_mem (repo : FS) (rel : FPath) :
    ∀ L : List FPath, rel ∉ L →
      lastW (L.filterMap
        (fun r => (lkp repo r).map (fun c => (filesP r, c)))) (filesP rel) = none := by
  intro L
  induction L with
  | nil => intro _; rfl
  | cons r L ih =>
    intro h
    have hr : rel ≠ r := fun hc => h (hc ▸ List.mem_cons_self ..)
    have hL : rel ∉ L := fun hc => h (List.mem_cons_of_mem _ hc)
    rw [List.filterMap_cons]
    rcases hlk : lkp repo r with _ | c
    · simp only [Option.map_none']
      exact ih hL
    · simp only [Option.map_some']
      simp only [lastW, ih hL]
      rw [if_neg (fun hc => hr (filesP_inj hc).symm)]

theorem lastW_copyRepoWrites_mem (repo : FS) (rel : FPath) :
    ∀ L : List FPath, rel ∈ L → L.Nodup →
      lastW (L.filterMap
        (fun r => (lkp repo r).map (fun c => (filesP r, c)))) (filesP rel) =
        lkp repo rel := by
  intro L
  induction L with
  | nil => intro h _; simp at h
  | cons r L ih =>
    intro hmem hnd
    rcases List.nodup_cons.mp hnd with ⟨hrL, hndL⟩
    rw [List.filterMap_cons]
    by_cases heq : rel = r
    · subst heq
      rcases hlk : lkp repo rel with _ | c
      · simp only [Option.map_none']
        exact lastW_copyRepoWrites_not_mem repo rel L hrL
      · simp only [Option.map_some']
        simp only [lastW, lastW_copyRepoWrites_not_mem repo rel L hrL]
        simp
    · have hmem' : rel ∈ L := by
        rcases List.mem_cons.mp hmem with h | h
        · exact absurd h heq
        · exact h
      rcases hlk : lkp repo r with _ | c
      · simp only [Option.map_none']
        exact ih hmem' hndL
      · simp only [Option.map_some']
        simp only [lastW, ih hmem' hndL]
        rcases lkp repo rel with _ | v
        · rw [if_neg (fun hc => heq (filesP_inj hc).symm)]
        · rfl

/-- C9: when the Bundle Assembler copies ChangeSet paths into `files/`, a
path that no longer exists as a regular file in the working tree at copy
time is silently skipped — the destination is left untouched and nothing is
raised (`copy_repo_files` is a total function) — while every path that does
exist is still copied. -/
theorem c9_vanished_paths_skipped (repo : FS) (rels : List FPath) (fs : FS)
    (rel : FPath) (hmem : rel ∈ rels) :
    (∀ c, lkp repo rel = some c →
      lkp (copy_repo_files repo rels fs) (filesP rel) = some c) ∧
    (lkp repo rel = none →
      lkp (copy_repo_files repo rels fs) (filesP rel) = lkp fs (filesP rel)) := by
  have hmem' : rel ∈ isortP rels.dedup := mem_isortP.mpr (List.mem_dedup.mpr hmem)
  have hnd : (isortP rels.dedup).Nodup := nodup_isortP (List.nodup_dedup _)
  have hlw := lastW_copyRepoWrites_mem repo rel (isortP rels.dedup) hmem' hnd
  constructor
  · intro c hc
    unfold copy_repo_files copyRepoWrites
    rw [lkp_applyW, hlw, hc]
  · intro hc
    unfold copy_repo_files copyRepoWrites
    rw [lkp_applyW, hlw, hc]

/-- C9 witness: a two-path ChangeSet over a tree holding only the first
path; the first is copied, the second leaves the destination untouched. -/
theorem c9_witness :
    lkp (copy_repo_files [([cs "a.py"], FData.str (cs "x"))]
        [[cs "a.py"], [cs "gone.py"]] []) (filesP [cs "a.py"]) =
      some (FData.str (cs "x")) ∧
    lkp (copy_repo_files [([cs "a.py"], FData.str (cs "x"))]
        [[cs "a.py"], [cs "gone.py"]] []) (filesP [cs "gone.py"]) =
      lkp ([] : FS) (filesP [cs "gone.py"]) := by
  constructor
  · exact (c9_vanished_paths_skipped [([cs "a.py"], FData.str (cs "x"))]
      [[cs "a.py"], [cs "gone.py"]] [] [cs "a.py"] (by decide)).1
      (FData.str (cs "x")) (by decide)
  · exact (c9_vanished_paths_skipped [([cs "a.py"], FData.str (cs "x"))]
      [[cs "a.py"], [cs "gone.py"]] [] [cs "gone.py"] (by decide)).2 (by decide)

/-! ### Lookup lemmas for the checker-bundle stages -/

theorem testFileName_of_mem_testKeys {g : FS} {t : FPath} (h : t ∈ testKeys g) :
    testFileName (nameOf t) = true := by
  unfold testKeys at h
  rw [mem_isortP, List.mem_dedup, List.mem_filter] at h
  rcases h with ⟨_, hu⟩
  rcases t with _ | ⟨d, _ | ⟨c0, rest⟩⟩
  · simp [underFilesTest] at hu
  · simp [underFilesTest] at hu
  · simp only [underFilesTest, Bool.and_eq_true] at hu
    exact hu.2

theorem underFilesTest_shape {p : FPath} (h : underFilesTest p = true) :
    ∃ c0 rest, p = filesDirName :: c0 :: rest := by
  rcases p with _ | ⟨d, _ | ⟨c0, rest⟩⟩
  · simp [underFilesTest] at h
  · simp [underFilesTest] at h
  · simp only [underFilesTest, Bool.and_eq_true, decide_eq_true_eq] at h
    exact ⟨c0, rest, by rw [h.1]⟩

theorem lastW_flattenGo_ne (g : FS) :
    ∀ (ts : List FPath) (seen : List Chars) (p : FPath),
      (∀ t ∈ ts, bundleP (nameOf t) ≠ p ∧ rootP (nameOf t) ≠ p) →
      lastW (flattenGo g ts seen) p = none := by
  intro ts
  induction ts with
  | nil => intro seen p _; rfl
  | cons t ts ih =>
    intro seen p h
    have ht := h t (List.mem_cons_self ..)
    have hts := fun t' ht' => h t' (List.mem_cons_of_mem t ht')
    simp only [flattenGo]
    by_cases hs : nameOf t ∈ seen
    · rw [if_pos hs]
      exact ih seen p hts
    · rw [if_neg hs]
      rcases hlk : lkp g t with _ | c
      · dsimp only
        exact ih _ p hts
      · dsimp only
        simp [lastW, ih (nameOf t :: seen) p hts, ht.1, ht.2]

theorem lastW_ccbDockerWrites_ne (c? : Option FData) (p : FPath)
    (h1 : bundleP dockerDstName ≠ p) (h2 : rootP dockerDstName ≠ p) :
    lastW (ccbDockerWrites c?) p = none := by
  rcases c? with _ | c
  · rfl
  · simp [ccbDockerWrites, lastW, h1, h2]

theorem lastW_ccbRootIssueWrites_ne (n : Nat) (c? : Option FData) (p : FPath)
    (h : rootP (issueFileName n) ≠ p) : lastW (ccbRootIssueWrites n c?) p = none := by
  rcases c? with _ | c
  · rfl
  · simp [ccbRootIssueWrites, lastW, h]

theorem lastW_ccbFw_issue (inp : AsmInput) (g : FS) :
    lastW (ccbFw inp g) (bundleP (issueFileName inp.issue.number)) = none := by
  unfold ccbFw
  apply lastW_flattenGo_ne
  intro t htk
  constructor
  · intro hc
    have hnm : nameOf t = issueFileName inp.issue.number := by
      simpa [bundleP] using hc
    have htn := testFileName_of_mem_testKeys htk
    rw [hnm, testFileName_issueFileName] at htn
    exact absurd htn (by simp)
  · exact rootP_ne_bundleP _ _

theorem lastW_ccbDw_ne (inp : AsmInput) (g : FS) (p : FPath)
    (h1 : bundleP dockerDstName ≠ p) (h2 : rootP dockerDstName ≠ p) :
    lastW (ccbDw inp g) p = none := by
  unfold ccbDw
  exact lastW_ccbDockerWrites_ne _ _ h1 h2

theorem lkp_ccbStage3_issue (inp : AsmInput) (g : FS) :
    lkp (ccbStage3 inp g) (bundleP (issueFileName inp.issue.number)) =
      some (bundleIssueData inp) := by
  unfold ccbStage3
  rw [lkp_applyW, lastW_ccbFw_issue]
  dsimp only
  unfold ccbStage2
  rw [lkp_applyW, lastW_ccbDw_ne inp g _
    (fun hc => dockerDstName_ne_issueFileName _ (by simpa [bundleP] using hc))
    (rootP_ne_bundleP _ _)]
  dsimp only
  unfold ccbStage1
  exact lkp_fwrite_self ..

/-- C7 (amended): the issue-record JSON written to `bundle/issue_<n>.json`
(and mirrored at the export root) has exactly the fields number, url and a
single-element linked-PR list of base sha, head sha and patch, where the url
is the primary URL field, falling back to the secondary URL field when the
primary is absent or empty (Python falsiness), and to the empty string when
both are. -/
theorem c7_issue_json_fields (inp : AsmInput) (fs : FS) :
    lkp (create_checker_bundle inp fs) (bundleP (issueFileName inp.issue.number)) =
      some (bundleIssueData inp) ∧
    lkp (create_checker_bundle inp fs) (rootP (issueFileName inp.issue.number)) =
      some (bundleIssueData inp) ∧
    bundleIssueData inp =
      .issueJson inp.issue.number (issueUrl inp.issue)
        (inp.pr.baseSha.getD []) (inp.pr.headSha.getD []) inp.patch := by
  have hiname := lkp_ccbStage3_issue inp fs
  refine ⟨?_, ?_, rfl⟩
  · unfold create_checker_bundle ccbWrites
    rw [lkp_applyW]
    have h1 : lastW (ccbDw inp fs ++ ccbFw inp fs ++ ccbRw inp fs)
        (bundleP (issueFileName inp.issue.number)) = none := by
      rw [lastW_append]
      rw [show lastW (ccbRw inp fs) (bundleP (issueFileName inp.issue.number)) = none from
        lastW_ccbRootIssueWrites_ne _ _ _ (rootP_ne_bundleP _ _)]
      dsimp only
      rw [lastW_append, lastW_ccbFw_issue]
      dsimp only
      exact lastW_ccbDw_ne inp fs _
        (fun hc => dockerDstName_ne_issueFileName _ (by simpa [bundleP] using hc))
        (rootP_ne_bundleP _ _)
    simp only [lastW]
    rw [h1]
    simp
  · unfold create_checker_bundle ccbWrites
    rw [lkp_applyW]
    have hrw : ccbRw inp fs =
        [(rootP (issueFileName inp.issue.number), bundleIssueData inp)] := by
      unfold ccbRw
      rw [hiname]
      rfl
    have h1 : lastW (ccbDw inp fs ++ ccbFw inp fs ++ ccbRw inp fs)
        (rootP (issueFileName inp.issue.number)) =
        some (bundleIssueData inp) := by
      rw [lastW_append, hrw]
      simp [lastW]
    simp only [lastW]
    rw [h1]

/-- An issue record whose primary URL field is present but empty, with a
non-empty secondary URL field. -/
def issueEmptyHtml : IssueRec := ⟨7, some [], some (cs "https://u")⟩

/-- An assembler input around `issueEmptyHtml`. -/
def asmC7 : AsmInput := ⟨[], [], issueEmptyHtml, ⟨some (cs "b"), some (cs "h")⟩, cs "p"⟩

/-- C7 counterexample: with the primary URL field present but empty, the
code writes the secondary URL into the bundle issue JSON, while the claim
(fall back only when the primary is absent) would demand the primary's
value; the written record differs from the claimed one. -/
theorem c7_counterexample :
    issueUrl issueEmptyHtml = cs "https://u" ∧
    issueUrlSpec issueEmptyHtml = [] ∧
    issueUrl issueEmptyHtml ≠ issueUrlSpec issueEmptyHtml ∧
    lkp (create_checker_bundle asmC7 []) (bundleP (issueFileName 7)) =
      some (FData.issueJson 7 (cs "https://u") (cs "b") (cs "h") (cs "p")) ∧
    FData.issueJson 7 (cs "https://u") (cs "b") (cs "h") (cs "p") ≠
      FData.issueJson 7 (issueUrlSpec issueEmptyHtml) (cs "b") (cs "h") (cs "p") := by
  refine ⟨rfl, rfl, by decide, by decide, by decide⟩

/-! ### C3: sorted flattening with first-seen-wins basename collision -/

theorem lastW_flattenGo_seen (g : FS) :
    ∀ (ts : List FPath) (seen : List Chars) (n : Chars), n ∈ seen →
      lastW (flattenGo g ts seen) (bundleP n) = none ∧
      lastW (flattenGo g ts seen) (rootP n) = none := by
  intro ts
  induction ts with
  | nil => intro seen n _; exact ⟨rfl, rfl⟩
  | cons t ts ih =>
    intro seen n hn
    simp only [flattenGo]
    by_cases hs : nameOf t ∈ seen
    · rw [if_pos hs]
      exact ih seen n hn
    · rw [if_neg hs]
      have hne : nameOf t ≠ n := fun hc => hs (hc ▸ hn)
      rcases hlk : lkp g t with _ | c
      · dsimp only
        exact ih _ n (List.mem_cons_of_mem _ hn)
      · dsimp only
        have htl := ih (nameOf t :: seen) n (List.mem_cons_of_mem _ hn)
        constructor
        · have h1 : bundleP (nameOf t) ≠ bundleP n :=
            fun hc => hne (by simpa [bundleP] using hc)
          have h2 : rootP (nameOf t) ≠ bundleP n := rootP_ne_bundleP _ _
          simp [lastW, htl.1, h1, h2]
        · have h1 : bundleP (nameOf t) ≠ rootP n :=
            Ne.symm (rootP_ne_bundleP n (nameOf t))
          have h2 : rootP (nameOf t) ≠ rootP n :=
            fun hc => hne (by simpa [rootP] using hc)
          simp [lastW, htl.2, h1, h2]

theorem lastW_flattenGo_find (g : FS) :
    ∀ (ts : List FPath) (seen : List Chars) (n : Chars) (t : FPath) (c : FData),
      n ∉ seen →
      ts.find? (fun t' => decide (nameOf t' = n)) = some t →
      lkp g t = some c →
      lastW (flattenGo g ts seen) (bundleP n) = some c ∧
      lastW (flattenGo g ts seen) (rootP n) = some c := by
  intro ts
  induction ts with
  | nil =>
    intro seen n t c _ hf _
    simp [List.find?] at hf
  | cons t' ts ih =>
    intro seen n t c hns hf hc
    by_cases hn : nameOf t' = n
    · rw [List.find?_cons_of_pos _ (by simp [hn])] at hf
      have hft : t = t' := (Option.some.inj hf).symm
      subst hft
      simp only [flattenGo]
      rw [if_neg (hn ▸ hns)]
      rw [hc]
      dsimp only
      constructor
      · rw [hn]
        have hseen := lastW_flattenGo_seen g ts (n :: seen) n (List.mem_cons_self ..)
        have h2 : rootP n ≠ bundleP n := rootP_ne_bundleP _ _
        simp [lastW, hseen.1, hseen.2, h2]
      · rw [hn]
        have hseen := lastW_flattenGo_seen g ts (n :: seen) n (List.mem_cons_self ..)
        simp [lastW, hseen.1, hseen.2]
    · rw [List.find?_cons_of_neg _ (by simp [hn])] at hf
      have hnotin : n ∉ nameOf t' :: seen := by
        intro hmem
        rcases List.mem_cons.mp hmem with h | h
        · exact hn h.symm
        · exact hns h
      simp only [flattenGo]
      by_cases hs : nameOf t' ∈ seen
      · rw [if_pos hs]
        exact ih seen n t c hns hf hc
      · rw [if_neg hs]
        rcases hlk : lkp g t' with _ | c'
        · dsimp only
          exact ih _ n t c hnotin hf hc
        · dsimp only
          have htl := ih (nameOf t' :: seen) n t c hnotin hf hc
          constructor
          · simp [lastW, htl.1]
          · simp [lastW, htl.2]

/-- C3: the Bundle Assembler's test flattening processes the test files
found under `files/` in sorted path order, and the file copied to the
flattened locations `bundle/<basename>` and the export root is the first
one in that order with the basename — a later file with the same basename
is silently skipped (the loop is a total function; it raises nothing). -/
theorem c3_sorted_flatten_first_wins (inp : AsmInput) (fs : FS) (n : Chars)
    (t : FPath) (c : FData)
    (hfind : (testKeys (ccbStage2 inp fs)).find?
      (fun t' => decide (nameOf t' = n)) = some t)
    (hc : lkp (ccbStage2 inp fs) t = some c) :
    (testKeys (ccbStage2 inp fs)).Pairwise pathLe ∧
    lastW (ccbFw inp fs) (bundleP n) = some c ∧
    lastW (ccbFw inp fs) (rootP n) = some c := by
  refine ⟨isortP_sorted _, ?_, ?_⟩
  · exact (lastW_flattenGo_find (ccbStage2 inp fs) (testKeys (ccbStage2 inp fs)) []
      n t c (by simp) hfind hc).1
  · exact (lastW_flattenGo_find (ccbStage2 inp fs) (testKeys (ccbStage2 inp fs)) []
      n t c (by simp) hfind hc).2

/-- An assembler input with no ChangeSet over a filesystem already holding
two test files with the same basename at different paths. -/
def asmC3 : AsmInput := ⟨[], [], ⟨1, none, none⟩, ⟨none, none⟩, []⟩

def fsC3 : FS :=
  [(filesP [cs "a", cs "test_x.py"], FData.str (cs "A")),
   (filesP [cs "b", cs "test_x.py"], FData.str (cs "B"))]

/-- C3 witness: of the two same-basename test files `files/a/test_x.py` and
`files/b/test_x.py`, the earlier in sorted order (`a/...`) is the one
flattened into both locations. -/
theorem c3_witness :
    (testKeys (ccbStage2 asmC3 fsC3)).Pairwise pathLe ∧
    lastW (ccbFw asmC3 fsC3) (bundleP (cs "test_x.py")) =
      some (FData.str (cs "A")) ∧
    lastW (ccbFw asmC3 fsC3) (rootP (cs "test_x.py")) =
      some (FData.str (cs "A")) :=
  c3_sorted_flatten_first_wins asmC3 fsC3 (cs "test_x.py")
    (filesP [cs "a", cs "test_x.py"]) (FData.str (cs "A")) (by decide) (by decide)

/-! ### C4: idempotence of the Bundle Assembler -/

theorem ccbDockerWrites_shape (c? : Option FData) (w : FPath × FData)
    (hw : w ∈ ccbDockerWrites c?) :
    w.1 = bundleP dockerDstName ∨ w.1 = rootP dockerDstName := by
  rcases c? with _ | c
  · simp [ccbDockerWrites] at hw
  · rcases List.mem_cons.mp hw with rfl | hw1
    · exact Or.inl rfl
    · rcases List.mem_cons.mp hw1 with rfl | hw2
      · exact Or.inr rfl
      · simp at hw2

theorem ccbRootIssueWrites_shape (n : Nat) (c? : Option FData) (w : FPath × FData)
    (hw : w ∈ ccbRootIssueWrites n c?) : w.1 = rootP (issueFileName n) := by
  rcases c? with _ | c
  · simp [ccbRootIssueWrites] at hw
  · rcases List.mem_cons.mp hw with rfl | hw1
    · rfl
    · simp at hw1

theorem flattenGo_key_shape (g : FS) :
    ∀ (ts : List FPath) (seen : List Chars) (w : FPath × FData),
      w ∈ flattenGo g ts seen → ∃ nm, w.1 = bundleP nm ∨ w.1 = rootP nm := by
  intro ts
  induction ts with
  | nil => intro seen w hw; simp [flattenGo] at hw
  | cons t ts ih =>
    intro seen w hw
    simp only [flattenGo] at hw
    by_cases hs : nameOf t ∈ seen
    · rw [if_pos hs] at hw
      exact ih seen w hw
    · rw [if_neg hs] at hw
      rcases hlk : lkp g t with _ | c <;> rw [hlk] at hw <;> dsimp only at hw
      · exact ih _ w hw
      · rcases List.mem_cons.mp hw with rfl | hw1
        · exact ⟨nameOf t, Or.inl rfl⟩
        · rcases List.mem_cons.mp hw1 with rfl | hw2
          · exact ⟨nameOf t, Or.inr rfl⟩
          · exact ih _ w hw2

theorem ccbWrites_key_shape (inp : AsmInput) (g : FS) (w : FPath × FData)
    (hw : w ∈ ccbWrites inp g) : ∃ nm, w.1 = bundleP nm ∨ w.1 = rootP nm := by
  unfold ccbWrites at hw
  rcases List.mem_cons.mp hw with rfl | hw1
  · exact ⟨issueFileName inp.issue.number, Or.inl rfl⟩
  · rcases List.mem_append.mp hw1 with hw2 | hw2
    · rcases List.mem_append.mp hw2 with hw3 | hw3
      · unfold ccbDw at hw3
        rcases ccbDockerWrites_shape _ _ hw3 with h | h
        · exact ⟨dockerDstName, Or.inl h⟩
        · exact ⟨dockerDstName, Or.inr h⟩
      · unfold ccbFw at hw3
        exact flattenGo_key_shape _ _ _ _ hw3
    · unfold ccbRw at hw2
      exact ⟨issueFileName inp.issue.number,
        Or.inr (ccbRootIssueWrites_shape _ _ _ hw2)⟩

theorem lastW_ccbWrites_files (inp : AsmInput) (g : FS) (c0 : Chars)
    (rest : List Chars) :
    lastW (ccbWrites inp g) (filesDirName :: c0 :: rest) = none := by
  apply lastW_eq_none_of_no_key
  intro w hw
  rcases ccbWrites_key_shape inp g w hw with ⟨nm, h | h⟩
  · rw [h]
    exact bundleP_ne_filesKey _ _ _
  · rw [h]
    exact rootP_ne_filesKey _ _ _

/-- The checker-bundle step never writes under `files/`: the `files/`
subtree after a full assembler run is the one `copy_repo_files` left. -/
theorem run_files_eq (inp : AsmInput) (fs : FS) (c0 : Chars) (rest : List Chars) :
    lkp (runAssembler inp fs) (filesDirName :: c0 :: rest) =
      lkp (copy_repo_files inp.repoTree inp.changeSet fs) (filesDirName :: c0 :: rest) := by
  unfold runAssembler create_checker_bundle
  rw [lkp_applyW, lastW_ccbWrites_files]

/-- Re-copying the same ChangeSet over a completed run restores the same
`files/` subtree readings as the first copy. -/
theorem copy_files_absorb (inp : AsmInput) (fs : FS) (c0 : Chars) (rest : List Chars) :
    lkp (copy_repo_files inp.repoTree inp.changeSet (runAssembler inp fs))
        (filesDirName :: c0 :: rest) =
      lkp (copy_repo_files inp.repoTree inp.changeSet fs)
        (filesDirName :: c0 :: rest) := by
  unfold copy_repo_files
  rw [lkp_applyW, lkp_applyW]
  rcases hl : lastW (copyRepoWrites inp.repoTree inp.changeSet)
      (filesDirName :: c0 :: rest) with _ | v
  · dsimp only
    rw [run_files_eq]
    unfold copy_repo_files
    rw [lkp_applyW, hl]
  · rfl

theorem underFilesTest_of_mem_testKeys {g : FS} {t : FPath} (h : t ∈ testKeys g) :
    underFilesTest t = true := by
  unfold testKeys at h
  rw [mem_isortP, List.mem_dedup, List.mem_filter] at h
  exact h.2

/-- Sorting `files_dir.rglob("test*.py")` depends only on which test paths
exist under `files/`: two states agreeing there produce the same sorted
list. -/
theorem testKeys_ext {gA gB : FS}
    (h : ∀ p, underFilesTest p = true → ((lkp gA p).isSome ↔ (lkp gB p).isSome)) :
    testKeys gA = testKeys gB := by
  apply sorted_nodup_ext (isortP_sorted _) (isortP_sorted _)
    (nodup_isortP (List.nodup_dedup _)) (nodup_isortP (List.nodup_dedup _))
  intro x
  rw [mem_isortP, mem_isortP, List.mem_dedup, List.mem_dedup,
    List.mem_filter, List.mem_filter]
  constructor
  · rintro ⟨hk, hu⟩
    refine ⟨?_, hu⟩
    rw [← lkp_isSome_iff_memKeys] at hk ⊢
    exact (h x hu).mp hk
  · rintro ⟨hk, hu⟩
    refine ⟨?_, hu⟩
    rw [← lkp_isSome_iff_memKeys] at hk ⊢
    exact (h x hu).mpr hk

/-- The flattening loop reads files only at the listed paths: two states
agreeing there produce the same writes. -/
theorem flattenGo_ext {gA gB : FS} :
    ∀ (ts : List FPath) (seen : List Chars),
      (∀ t ∈ ts, lkp gA t = lkp gB t) →
      flattenGo gA ts seen = flattenGo gB ts seen := by
  intro ts
  induction ts with
  | nil => intro _ _; rfl
  | cons t ts ih =>
    intro seen h
    have ht := h t (List.mem_cons_self ..)
    have hts := fun t' ht' => h t' (List.mem_cons_of_mem t ht')
    simp only [flattenGo]
    by_cases hs : nameOf t ∈ seen
    · rw [if_pos hs, if_pos hs]
      exact ih seen hts
    · rw [if_neg hs, if_neg hs, ht]
      rcases lkp gB t with _ | c
      · dsimp only
        exact ih _ hts
      · dsimp only
        rw [ih _ hts]

theorem lkp_ccbStage2_files (inp : AsmInput) (g : FS) (c0 : Chars)
    (rest : List Chars) :
    lkp (ccbStage2 inp g) (filesDirName :: c0 :: rest) =
      lkp g (filesDirName :: c0 :: rest) := by
  unfold ccbStage2
  rw [lkp_applyW]
  have hdw : lastW (ccbDw inp g) (filesDirName :: c0 :: rest) = none := by
    apply lastW_eq_none_of_no_key
    intro w hw
    unfold ccbDw at hw
    rcases ccbDockerWrites_shape _ _ hw with h | h
    · rw [h]
      exact bundleP_ne_filesKey _ _ _
    · rw [h]
      exact rootP_ne_filesKey _ _ _
  rw [hdw]
  dsimp only
  unfold ccbStage1
  exact lkp_fwrite_ne g (bundleIssueData inp)
    (Ne.symm (bundleP_ne_filesKey _ _ _))

/-- The whole checker-bundle write list is determined by the `files/`
subtree of the state it runs on. -/
theorem ccbWrites_congr (inp : AsmInput) {gA gB : FS}
    (h : ∀ c0 rest, lkp gA (filesDirName :: c0 :: rest) =
      lkp gB (filesDirName :: c0 :: rest)) :
    ccbWrites inp gA = ccbWrites inp gB := by
  have hdk : lkp (ccbStage1 inp gA) (filesP [cs "Dockerfile"]) =
      lkp (ccbStage1 inp gB) (filesP [cs "Dockerfile"]) := by
    unfold ccbStage1
    rw [show filesP [cs "Dockerfile"] = filesDirName :: cs "Dockerfile" :: [] from rfl]
    rw [lkp_fwrite_ne gA (bundleIssueData inp) (Ne.symm (bundleP_ne_filesKey _ _ _)),
      lkp_fwrite_ne gB (bundleIssueData inp) (Ne.symm (bundleP_ne_filesKey _ _ _))]
    exact h (cs "Dockerfile") []
  have hdw : ccbDw inp gA = ccbDw inp gB := by
    unfold ccbDw
    rw [hdk]
  have h2 : ∀ c0 rest, lkp (ccbStage2 inp gA) (filesDirName :: c0 :: rest) =
      lkp (ccbStage2 inp gB) (filesDirName :: c0 :: rest) := by
    intro c0 rest
    rw [lkp_ccbStage2_files, lkp_ccbStage2_files]
    exact h c0 rest
  have htk : testKeys (ccbStage2 inp gA) = testKeys (ccbStage2 inp gB) := by
    apply testKeys_ext
    intro p hu
    rcases underFilesTest_shape hu with ⟨c0, rest, rfl⟩
    rw [h2 c0 rest]
  have hfw : ccbFw inp gA = ccbFw inp gB := by
    unfold ccbFw
    rw [htk]
    apply flattenGo_ext
    intro t ht
    rcases underFilesTest_shape (underFilesTest_of_mem_testKeys ht)
      with ⟨c0, rest, rfl⟩
    exact h2 c0 rest
  have hrw : ccbRw inp gA = ccbRw inp gB := by
    unfold ccbRw
    rw [lkp_ccbStage3_issue, lkp_ccbStage3_issue]
  unfold ccbWrites
  rw [hdw, hfw, hrw]

/-- C4: running the Bundle Assembler twice with identical inputs (same
export root, ChangeSet, working tree, issue record, PR record and patch
text) produces byte-identical trees — every path of the export tree,
`bundle/` and `files/` included, reads the same after the second run as
after the first; the second run overwrites, never appends or merges. -/
theorem c4_assembler_idempotent (inp : AsmInput) (fs : FS) (p : FPath) :
    lkp (runAssembler inp (runAssembler inp fs)) p = lkp (runAssembler inp fs) p := by
  have hcongr : ccbWrites inp
      (copy_repo_files inp.repoTree inp.changeSet (runAssembler inp fs)) =
      ccbWrites inp (copy_repo_files inp.repoTree inp.changeSet fs) :=
    ccbWrites_congr inp (fun c0 rest => copy_files_absorb inp fs c0 rest)
  show lkp (create_checker_bundle inp
    (copy_repo_files inp.repoTree inp.changeSet (runAssembler inp fs))) p =
    lkp (create_checker_bundle inp
      (copy_repo_files inp.repoTree inp.changeSet fs)) p
  unfold create_checker_bundle
  rw [hcongr, lkp_applyW, lkp_applyW]
  rcases hl : lastW (ccbWrites inp (copy_repo_files inp.repoTree inp.changeSet fs))
      p with _ | v
  · dsimp only
    unfold copy_repo_files
    rw [lkp_applyW, lkp_applyW]
    rcases hc : lastW (copyRepoWrites inp.repoTree inp.changeSet) p with _ | w
    · dsimp only
      show lkp (create_checker_bundle inp
        (copy_repo_files inp.repoTree inp.changeSet fs)) p = lkp fs p
      unfold create_checker_bundle
      rw [lkp_applyW, hl]
      dsimp only
      unfold copy_repo_files
      rw [lkp_applyW, hc]
    · rfl
  · rfl
